import Mathlib

/-!
# Verification of the `womoku` Gomoku engine (`ai.py`)

Shallow embedding of the move-selection engine `GomokuAI` from `src/ai.py`.
The board is a list of rows of integer cells (`0` empty, `1` black, `-1`
white), the exact data the numpy array holds.  Every Python method is
translated into an executable Lean function; the in-place mutation of the
board performed by the search is made explicit by threading the board value
through the functions and returning the final board alongside the result.

Python `while` loops that walk along a board direction are translated with a
fuel argument; the loops stop as soon as the running coordinate leaves the
board, which happens after at most `rows + cols` steps because every
direction moves at least one coordinate monotonically, so fuel
`rows + cols + 2` never alters the computed value.
-/

set_option maxRecDepth 10000

namespace Womoku

/-- A board: list of rows, each row a list of cells (`0`, `1` or `-1`). -/
abbrev Board := List (List Int)

/-- A move: `(row, col)` pair, `0`-indexed. -/
abbrev Move := Nat × Nat

/-- `len(board)`. -/
def rows (b : Board) : Nat := b.length

/-- `len(board[0])` (`0` if the board has no rows; the Python code is only
ever called with non-empty boards). -/
def cols (b : Board) : Nat := (b.getD 0 []).length

/-- `board[r][c]` for natural indices, out-of-range reads defaulting to `0`.
The Python code only reads cells after an explicit bounds check. -/
def cell (b : Board) (r c : Nat) : Int := (b.getD r []).getD c 0

/-- `board[r][c]` for integer indices (the scanning loops run coordinates
through `ℤ` before their bounds checks). -/
def cellI (b : Board) (r c : Int) : Int := cell b r.toNat c.toNat

/-- `0 <= r < len(board) and 0 <= c < len(board[0])`. -/
def inB (b : Board) (r c : Int) : Bool :=
  0 ≤ r && r < (rows b : Int) && 0 ≤ c && c < (cols b : Int)

/-- `board[r][c] = v` (no-op when out of range, like numpy would reject it;
the engine only writes in-range cells). -/
def setCell (b : Board) (r c : Nat) (v : Int) : Board :=
  b.set r ((b.getD r []).set c v)

/-- The four canonical axes `[(1,0), (0,1), (1,1), (1,-1)]` used by
`_count_pattern`, `_count_jump_pattern` and `_count_double_pattern`. -/
def directions : List (Int × Int) := [(1,0), (0,1), (1,1), (1,-1)]

/-- Fuel bound for the direction-walking `while` loops. -/
def fuel (b : Board) : Nat := rows b + cols b + 2

/-- The `while` loop of `_count_pattern`: starting at `(r, c)` and stepping
by `(dr, dc)`, counts consecutive in-bounds cells equal to `p`. -/
def scanRun (b : Board) (p : Int) (dr dc : Int) : Nat → Int → Int → Nat
  | 0, _, _ => 0
  | f + 1, r, c =>
    if inB b r c && cellI b r c == p then
      scanRun b p dr dc f (r + dr) (c + dc) + 1
    else 0

/-- The run count of `_count_pattern` for one direction: the origin cell
counts as `1` regardless of its content, plus the consecutive `p`-cells
one step beyond the origin in the direction and in its opposite. -/
def dirCount (b : Board) (row col : Int) (p : Int) (d : Int × Int) : Nat :=
  1 + scanRun b p d.1 d.2 (fuel b) (row + d.1) (col + d.2)
    + scanRun b p (-d.1) (-d.2) (fuel b) (row - d.1) (col - d.2)

/-- The per-direction body of `_count_pattern`: report the direction when
the run count reaches `length` and, when `isAlive` is required, the two
cells at distance `count` from the origin in both orientations are
in-bounds and empty. -/
def dirCheck (b : Board) (row col : Int) (p : Int) (length : Nat)
    (isAlive : Bool) (d : Int × Int) : Bool :=
  let cnt := dirCount b row col p d
  if length ≤ cnt then
    if isAlive then
      let r1 := row + d.1 * cnt
      let c1 := col + d.2 * cnt
      let r2 := row - d.1 * cnt
      let c2 := col - d.2 * cnt
      inB b r1 c1 && cellI b r1 c1 == 0 && (inB b r2 c2 && cellI b r2 c2 == 0)
    else true
  else false

/-- `GomokuAI._count_pattern`: the loop over the four directions with early
`return True` is the disjunction of the per-direction checks. -/
def countPattern (b : Board) (row col : Int) (p : Int) (length : Nat)
    (isAlive : Bool) : Bool :=
  directions.any (dirCheck b row col p length isAlive)

/-- The `while` loop of `_count_jump_pattern`: walks while in bounds,
counting `p`-cells, skipping empties, stopping at the first cell that is
neither `p` nor empty. -/
def jumpScan (b : Board) (p : Int) (dr dc : Int) : Nat → Int → Int → Nat
  | 0, _, _ => 0
  | f + 1, r, c =>
    if inB b r c then
      if cellI b r c == p then jumpScan b p dr dc f (r + dr) (c + dc) + 1
      else if cellI b r c != 0 then 0
      else jumpScan b p dr dc f (r + dr) (c + dc)
    else 0

/-- The run count of `_count_jump_pattern` for one direction. -/
def jumpCount (b : Board) (row col : Int) (p : Int) (d : Int × Int) : Nat :=
  1 + jumpScan b p d.1 d.2 (fuel b) (row + d.1) (col + d.2)
    + jumpScan b p (-d.1) (-d.2) (fuel b) (row - d.1) (col - d.2)

/-- `GomokuAI._count_jump_pattern`. -/
def countJumpPattern (b : Board) (row col : Int) (p : Int) (length : Nat) :
    Bool :=
  directions.any fun d => length ≤ jumpCount b row col p d

/-- `GomokuAI._count_double_pattern`: the loop body ignores the direction
variable and calls the full `_count_pattern` once per direction, so it
counts the same boolean four times. -/
def countDoublePattern (b : Board) (row col : Int) (p : Int) (length : Nat) :
    Bool :=
  2 ≤ directions.countP fun _ => countPattern b row col p length true

/-- `GomokuAI._is_game_over`: checks `_count_pattern` for both sides from
the fixed reference cell `(0, 0)` only. -/
def isGameOver (b : Board) : Bool :=
  countPattern b 0 0 1 5 false || countPattern b 0 0 (-1) 5 false

/-- The eight compass directions of `_evaluate_board`, in the order the
nested `for di / for dj` loops produce them. -/
def dirs8 : List (Int × Int) :=
  [(-1,-1), (-1,0), (-1,1), (0,-1), (0,1), (1,-1), (1,0), (1,1)]

/-- Run bonus of `_evaluate_board` for the current player's stones. -/
def runBonus (count : Nat) : Int :=
  if 5 ≤ count then 100000
  else if count == 4 then 10000
  else if count == 3 then 1000
  else if count == 2 then 100
  else 0

/-- Run penalty of `_evaluate_board` for the opponent's stones. -/
def runPenalty (count : Nat) : Int :=
  if 5 ≤ count then 90000
  else if count == 4 then 9000
  else if count == 3 then 900
  else if count == 2 then 90
  else 0

/-- Positional bonus of `_evaluate_board` for one cell holding the current
player's stone (the zone bounds `3..11` / `2..12` are the literals of the
source, written for the fixed 15×15 board). -/
def posBonus (i j : Nat) : Int :=
  if 3 ≤ i ∧ i ≤ 11 ∧ 3 ≤ j ∧ j ≤ 11 then 50
  else if 2 ≤ i ∧ i ≤ 12 ∧ 2 ≤ j ∧ j ≤ 12 then 30
  else 0

/-- Positional penalty of `_evaluate_board` for one opponent stone. -/
def posPenalty (i j : Nat) : Int :=
  if 3 ≤ i ∧ i ≤ 11 ∧ 3 ≤ j ∧ j ≤ 11 then 45
  else if 2 ≤ i ∧ i ≤ 12 ∧ 2 ≤ j ∧ j ≤ 12 then 25
  else 0

/-- The run-length term of `_evaluate_board` for one cell: each of the 8
directions counts the cell plus the consecutive same-side cells beyond it. -/
def evalCellRuns (b : Board) (p : Int) (i j : Nat) : Int :=
  if cell b i j = p then
    (dirs8.map fun d =>
      runBonus (1 + scanRun b p d.1 d.2 (fuel b) ((i : Int) + d.1) ((j : Int) + d.2))).sum
  else if cell b i j = -p then
    -(dirs8.map fun d =>
      runPenalty (1 + scanRun b (-p) d.1 d.2 (fuel b) ((i : Int) + d.1) ((j : Int) + d.2))).sum
  else 0

/-- The positional term of `_evaluate_board` for one cell. -/
def evalCellPos (b : Board) (p : Int) (i j : Nat) : Int :=
  if cell b i j = p then posBonus i j
  else if cell b i j = -p then -posPenalty i j
  else 0

/-- `GomokuAI._evaluate_board`: run-length term plus positional term over
every cell of the board. -/
def evaluateBoard (b : Board) (p : Int) : Int :=
  ((List.range (rows b)).map fun i =>
    ((List.range (cols b)).map fun j =>
      evalCellRuns b p i j + evalCellPos b p i j).sum).sum

/-- `GomokuAI._has_neighbor`: true when any cell in the square window of
radius 2 around `(row, col)`, clipped to the board, is occupied.  Natural
subtraction realises Python's `max(0, row-2)`. -/
def hasNeighbor (b : Board) (row col : Nat) : Bool :=
  (List.range' (row - 2) (min (rows b) (row + 3) - (row - 2))).any fun i =>
    (List.range' (col - 2) (min (cols b) (col + 3) - (col - 2))).any fun j =>
      cell b i j != 0

/-- `GomokuAI._get_possible_moves`: every empty cell having an occupied
neighbour within radius 2, in row-major order; when none exists, the single
centre cell `(rows/2, cols/2)`. -/
def getPossibleMoves (b : Board) : List Move :=
  let ms := (List.range (rows b)).flatMap fun i =>
    (List.range (cols b)).filterMap fun j =>
      if cell b i j == 0 && hasNeighbor b i j then some (i, j) else none
  if ms.isEmpty then [(rows b / 2, cols b / 2)] else ms

/-- The threat score `_sort_moves_by_threat` accumulates for one move: each
pattern check runs on the board with the move cell overwritten by the side
the check concerns (`p` for offensive patterns, `-p` for blocking ones),
exactly the sequence of in-place writes the Python loop performs. -/
def moveThreatScore (b : Board) (mv : Move) (p : Int) : Int :=
  let r := (mv.1 : Int)
  let c := (mv.2 : Int)
  let bp := setCell b mv.1 mv.2 p
  let bo := setCell b mv.1 mv.2 (-p)
  (if isGameOver bp then 1000000 else 0) +
  (if isGameOver bo then 900000 else 0) +
  (if countPattern bp r c p 4 true then 100000 else 0) +
  (if countPattern bo r c (-p) 4 true then 90000 else 0) +
  (if countPattern bp r c p 3 true then 10000 else 0) +
  (if countPattern bo r c (-p) 3 true then 9000 else 0) +
  (if countPattern bp r c p 2 true then 1000 else 0) +
  (if countPattern bo r c (-p) 2 true then 900 else 0) +
  (if countJumpPattern bp r c p 3 then 8000 else 0) +
  (if countJumpPattern bo r c (-p) 3 then 7000 else 0) +
  (if countDoublePattern bp r c p 3 then 50000 else 0) +
  (if countDoublePattern bo r c (-p) 3 then 45000 else 0)

/-- The scoring loop of `_sort_moves_by_threat`: computes each move's score
and leaves the move cell set to `0`, threading the mutated board. -/
def scoreMoves (p : Int) : List Move → Board → List (Move × Int) × Board
  | [], b => ([], b)
  | mv :: rest, b =>
    let s := moveThreatScore b mv p
    let (tail, b') := scoreMoves p rest (setCell b mv.1 mv.2 0)
    ((mv, s) :: tail, b')

/-- Stable descending insertion of one scored move (later elements never
overtake earlier ones of equal score), matching Python's stable
`list.sort(key=..., reverse=True)`. -/
def insertDesc (x : Move × Int) : List (Move × Int) → List (Move × Int)
  | [] => [x]
  | y :: ys => if x.2 < y.2 then y :: insertDesc x ys else x :: y :: ys

/-- Stable descending sort by score; any stable sort computes exactly the
list Python's stable sort returns. -/
def stableSortDesc : List (Move × Int) → List (Move × Int)
  | [] => []
  | x :: xs => insertDesc x (stableSortDesc xs)

/-- `GomokuAI._sort_moves_by_threat`, returning the ranked moves and the
board after the loop's writes (each scored cell ends up `0`). -/
def sortMovesByThreat (b : Board) (moves : List Move) (p : Int) :
    List Move × Board :=
  let (scored, b') := scoreMoves p moves b
  ((stableSortDesc scored).map Prod.fst, b')

/-- Search scores: integers extended with `float('-inf')` (`⊥`) and
`float('inf')` (`⊤`), with Python's order on them. -/
abbrev Score := WithBot (WithTop Int)

/-- Embeds a finite evaluation into `Score`. -/
def val (z : Int) : Score := ((z : WithTop Int) : Score)

/-- The maximizing `for` loop of `_minimax`, parametrised by the recursive
call `rec b alpha beta p` one depth below: place, recurse, restore the
cell to `0`, raise the running maximum and `alpha`, and `break` once
`beta ≤ alpha`. -/
def maxLoopF (rec : Board → Score → Score → Int → Score × Board)
    (p : Int) (beta : Score) :
    List Move → Board → Score → Score → Score × Board
  | [], b, best, _ => (best, b)
  | mv :: rest, b, best, alpha =>
    let eb := rec (setCell b mv.1 mv.2 p) alpha beta (-p)
    let b2 := setCell eb.2 mv.1 mv.2 0
    let best' := max best eb.1
    let alpha' := max alpha eb.1
    if beta ≤ alpha' then (best', b2)
    else maxLoopF rec p beta rest b2 best' alpha'

/-- The minimizing `for` loop of `_minimax`: place, recurse, restore,
lower the running minimum and `beta`, and `break` once `beta ≤ alpha`. -/
def minLoopF (rec : Board → Score → Score → Int → Score × Board)
    (p : Int) (alpha : Score) :
    List Move → Board → Score → Score → Score × Board
  | [], b, best, _ => (best, b)
  | mv :: rest, b, best, beta =>
    let eb := rec (setCell b mv.1 mv.2 p) alpha beta (-p)
    let b2 := setCell eb.2 mv.1 mv.2 0
    let best' := min best eb.1
    let beta' := min beta eb.1
    if beta' ≤ alpha then (best', b2)
    else minLoopF rec p alpha rest b2 best' beta'

/-- `GomokuAI._minimax`, threading the mutated board.  At depth `0` or on a
terminal board it evaluates; otherwise it iterates the first 10 generated
moves with the alpha-beta loop, recursing one depth below with the
maximizing flag flipped and the side negated. -/
def minimax (b : Board) (d : Nat) (maxing : Bool) (alpha beta : Score)
    (p : Int) : Score × Board :=
  match d with
  | 0 => (val (evaluateBoard b p), b)
  | d' + 1 =>
    if isGameOver b then (val (evaluateBoard b p), b)
    else if maxing then
      maxLoopF (fun b' a' b'' p' => minimax b' d' false a' b'' p') p beta
        ((getPossibleMoves b).take 10) b ⊥ alpha
    else
      minLoopF (fun b' a' b'' p' => minimax b' d' true a' b'' p') p alpha
        ((getPossibleMoves b).take 10) b ⊤ beta

/-- The maximizing loop with its recursive call at depth `d'`. -/
def maxLoop (p : Int) (beta : Score) (d' : Nat) :
    List Move → Board → Score → Score → Score × Board :=
  maxLoopF (fun b' a' b'' p' => minimax b' d' false a' b'' p') p beta

/-- The minimizing loop with its recursive call at depth `d'`. -/
def minLoop (p : Int) (alpha : Score) (d' : Nat) :
    List Move → Board → Score → Score → Score × Board :=
  minLoopF (fun b' a' b'' p' => minimax b' d' true a' b'' p') p alpha

/-- The root `for` loop of `get_move`: place, call `_minimax` at
`depth - 1` minimizing for the opponent with `beta = +inf`, restore, keep
the strictly best score and its move, then raise `alpha` to the best
score.  The root loop has no `break`. -/
def rootLoop (p : Int) (d : Nat) :
    List Move → Board → Score → Option Move → Score →
    Option Move × Score × Board
  | [], b, best, bestMv, _ => (bestMv, best, b)
  | mv :: rest, b, best, bestMv, alpha =>
    let eb := minimax (setCell b mv.1 mv.2 p) (d - 1) false alpha ⊤ (-p)
    let b2 := setCell eb.2 mv.1 mv.2 0
    let bm := if best < eb.1 then (eb.1, some mv) else (best, bestMv)
    rootLoop p d rest b2 bm.1 bm.2 (max alpha bm.1)

/-- Lines 45–66 of `get_move`: generate the candidates, rank them by
threat, truncate to the top 20, and run the root loop. -/
def searchCore (b : Board) (p : Int) (d : Nat) :
    Option Move × Score × Board :=
  let sorted := sortMovesByThreat b (getPossibleMoves b) p
  rootLoop p d (sorted.1.take 20) sorted.2 ⊥ none ⊥

/-- The fixed opening book `opening_moves`. -/
def openingMoves : List (List Move) :=
  [[(7,7)], [(7,7),(7,8)], [(7,7),(8,8)], [(7,7),(6,8)], [(7,7),(8,7)],
   [(7,7),(6,7)], [(7,7),(7,6)]]

/-- The opening-phase scan of `get_move`: the first opening sequence long
enough for the current move count whose scheduled cell is still empty. -/
def openingPick (mc : Nat) (b : Board) : Option Move :=
  openingMoves.findSome? fun opening =>
    match opening.get? mc with
    | some mv => if cell b mv.1 mv.2 == 0 then some mv else none
    | none => none

/-- The engine state of a `GomokuAI` instance: move counter, result cache
and its bound, and the search depth selected by the difficulty.  The cache
key `str(board.tobytes())` is an injective serialisation of the fixed-shape
integer array, modelled by the board value itself; a stored value is the
`best_move` of a search, which Python allows to be `None`. -/
structure AIState where
  moveCount : Nat
  cache : List (Board × Option Move)
  cacheSize : Nat
  depth : Nat

/-- `GomokuAI.__init__`: depth 4/5/6 for easy/medium/hard (default 5),
empty cache bounded at 10000, move counter 0. -/
def mkEngine (difficulty : String) : AIState :=
  { moveCount := 0
    cache := []
    cacheSize := 10000
    depth :=
      if difficulty = "easy" then 4
      else if difficulty = "medium" then 5
      else if difficulty = "hard" then 6
      else 5 }

/-- `GomokuAI.get_move`: opening-book phase, cache lookup keyed by the
pre-call board, then the root search; a computed move is cached while the
cache is below its bound, and the move counter advances except on a cache
hit (the Python early `return` skips the increment).  Returns the chosen
move, the board as the caller sees it afterwards, and the new engine
state. -/
def getMove (st : AIState) (b : Board) (p : Int) :
    Option Move × Board × AIState :=
  match (if st.moveCount < 4 then openingPick st.moveCount b else none) with
  | some mv => (some mv, b, { st with moveCount := st.moveCount + 1 })
  | none =>
    match st.cache.lookup b with
    | some m => (m, b, st)
    | none =>
      let res := searchCore b p st.depth
      let cache' :=
        if st.cache.length < st.cacheSize then st.cache ++ [(b, res.1)]
        else st.cache
      (res.1, res.2.2,
        { st with cache := cache', moveCount := st.moveCount + 1 })

/-- An `h × w` board holding the listed stones and `0` elsewhere. -/
def boardOfStones (h w : Nat) (stones : List (Nat × Nat × Int)) : Board :=
  (List.range h).map fun i =>
    (List.range w).map fun j =>
      ((stones.find? fun s => s.1 == i && s.2.1 == j).map (·.2.2)).getD 0

/-- The empty 15×15 board. -/
def emptyBoard : Board := List.replicate 15 (List.replicate 15 0)

/-- The full 15×15 board of black stones. -/
def onesBoard : Board := List.replicate 15 (List.replicate 15 1)

/-- A board with a black five-in-a-row in the middle of row 7. -/
def c1RunBoard : Board :=
  boardOfStones 15 15 [(7,3,1), (7,4,1), (7,5,1), (7,6,1), (7,7,1)]

/-- A board with only four black stones at `(1,0)..(4,0)` and `(0,0)`
empty. -/
def c1FourBoard : Board :=
  boardOfStones 15 15 [(1,0,1), (2,0,1), (3,0,1), (4,0,1)]

/-- A board with a single horizontal open three of black through `(7,7)`. -/
def c4Board : Board := boardOfStones 15 15 [(7,6,1), (7,7,1), (7,8,1)]

/-- A 6×6 midgame position with more than ten candidate moves, used to
separate ranked from unranked ply truncation. -/
def c5Board : Board :=
  boardOfStones 6 6 [(3,2,1), (3,3,1), (4,2,-1), (4,3,1)]

/-- A board whose black three in row 0 is blocked one step beyond its
forward end at `(0,7)` but open at distance `count` from the origin. -/
def c6Board : Board :=
  boardOfStones 15 15 [(0,4,1), (0,5,1), (0,6,1), (0,7,-1)]

/-- A board with a single black stone on the centre cell. -/
def c3Board : Board := boardOfStones 15 15 [(7,7,1)]

/-- A board with a single white stone in the corner. -/
def c5WitnessBoard : Board := boardOfStones 15 15 [(0,0,-1)]

/-! ## Specification-side definitions

These definitions follow the words of the specification, for comparison
with the code-derived definitions above. -/

/-- Modelled from the spec: `len` contiguous stones of side `p` starting at
`(i, j)` along axis `d`, every cell in bounds. -/
def runStartingAt (b : Board) (p : Int) (i j : Nat) (d : Int × Int)
    (len : Nat) : Bool :=
  (List.range len).all fun k =>
    inB b ((i : Int) + d.1 * k) ((j : Int) + d.2 * k) &&
      cellI b ((i : Int) + d.1 * k) ((j : Int) + d.2 * k) == p

/-- Modelled from the spec: side `p` has an unconditional contiguous run of
at least `len` stones somewhere on the board along one of the four axes. -/
def existsRun (b : Board) (p : Int) (len : Nat) : Bool :=
  (List.range (rows b)).any fun i =>
    (List.range (cols b)).any fun j =>
      directions.any fun d => runStartingAt b p i j d len

/-- Modelled from the spec: the claimed reading of `is_terminal_win` — some
side has a five-or-longer run anywhere on the board. -/
def specTerminalWin (b : Board) : Bool :=
  existsRun b 1 5 || existsRun b (-1) 5

/-- Modelled from the spec: the cell immediately beyond each end of the run
through `(row, col)` along `d` (one step past the last same-side stone on
each side) is in-bounds and empty. -/
def specOpenAtEnds (b : Board) (row col : Int) (p : Int) (d : Int × Int) :
    Bool :=
  let fwd := scanRun b p d.1 d.2 (fuel b) (row + d.1) (col + d.2)
  let bwd := scanRun b p (-d.1) (-d.2) (fuel b) (row - d.1) (col - d.2)
  let r1 := row + d.1 * (fwd + 1)
  let c1 := col + d.2 * (fwd + 1)
  let r2 := row - d.1 * (bwd + 1)
  let c2 := col - d.2 * (bwd + 1)
  inB b r1 c1 && cellI b r1 c1 == 0 && (inB b r2 c2 && cellI b r2 c2 == 0)

/-- Modelled from the spec: a double open three — the per-direction open-run
check of length 3 holds in at least two distinct directions. -/
def specDoubleOpenThree (b : Board) (row col : Int) (p : Int) : Bool :=
  2 ≤ directions.countP fun d => dirCheck b row col p 3 true d

/-- The fixed tactical point weights of `_sort_moves_by_threat`, listed in
the spec's priority order: win, block win, open four, block open four,
double open three, block double open three, open three, block open three,
jump three, block jump three, open two, block open two. -/
def threatWeights : List Int :=
  [1000000, 900000, 100000, 90000, 50000, 45000, 10000, 9000, 8000, 7000,
   1000, 900]

/-! ## Pure reference searches

The code's `_minimax` mutates and restores the caller's board; the
reference versions below are written without state threading, evaluating
each child on its own board value.  They are used to state the refinement
and pruning claims. -/

/-- Maximizing loop of `pureAB`, parametrised by the recursive call. -/
def pureABMaxF (rec : Board → Score → Score → Int → Score)
    (p : Int) (beta : Score) :
    List Move → Board → Score → Score → Score
  | [], _, best, _ => best
  | mv :: rest, b, best, alpha =>
    let e := rec (setCell b mv.1 mv.2 p) alpha beta (-p)
    let best' := max best e
    let alpha' := max alpha e
    if beta ≤ alpha' then best'
    else pureABMaxF rec p beta rest b best' alpha'

/-- Minimizing loop of `pureAB`, parametrised by the recursive call. -/
def pureABMinF (rec : Board → Score → Score → Int → Score)
    (p : Int) (alpha : Score) :
    List Move → Board → Score → Score → Score
  | [], _, best, _ => best
  | mv :: rest, b, best, beta =>
    let e := rec (setCell b mv.1 mv.2 p) alpha beta (-p)
    let best' := min best e
    let beta' := min beta e
    if beta' ≤ alpha then best'
    else pureABMinF rec p alpha rest b best' beta'

/-- The code's minimax with alpha-beta written purely: same terminal test,
same unranked 10-move truncation, same alpha/beta updates and break. -/
def pureAB (b : Board) (d : Nat) (maxing : Bool) (alpha beta : Score)
    (p : Int) : Score :=
  match d with
  | 0 => val (evaluateBoard b p)
  | d' + 1 =>
    if isGameOver b then val (evaluateBoard b p)
    else if maxing then
      pureABMaxF (fun b' a' b'' p' => pureAB b' d' false a' b'' p') p beta
        ((getPossibleMoves b).take 10) b ⊥ alpha
    else
      pureABMinF (fun b' a' b'' p' => pureAB b' d' true a' b'' p') p alpha
        ((getPossibleMoves b).take 10) b ⊤ beta

/-- Maximizing loop of `pureAB` at depth `d'`. -/
def pureABMax (p : Int) (beta : Score) (d' : Nat) :
    List Move → Board → Score → Score → Score :=
  pureABMaxF (fun b' a' b'' p' => pureAB b' d' false a' b'' p') p beta

/-- Minimizing loop of `pureAB` at depth `d'`. -/
def pureABMin (p : Int) (alpha : Score) (d' : Nat) :
    List Move → Board → Score → Score → Score :=
  pureABMinF (fun b' a' b'' p' => pureAB b' d' true a' b'' p') p alpha

/-- Maximizing loop of `specRankedAB`, parametrised by the recursive
call. -/
def specRankedABMaxF (rec : Board → Score → Score → Int → Score)
    (p : Int) (beta : Score) :
    List Move → Board → Score → Score → Score
  | [], _, best, _ => best
  | mv :: rest, b, best, alpha =>
    let e := rec (setCell b mv.1 mv.2 p) alpha beta (-p)
    let best' := max best e
    let alpha' := max alpha e
    if beta ≤ alpha' then best'
    else specRankedABMaxF rec p beta rest b best' alpha'

/-- Minimizing loop of `specRankedAB`, parametrised by the recursive
call. -/
def specRankedABMinF (rec : Board → Score → Score → Int → Score)
    (p : Int) (alpha : Score) :
    List Move → Board → Score → Score → Score
  | [], _, best, _ => best
  | mv :: rest, b, best, beta =>
    let e := rec (setCell b mv.1 mv.2 p) alpha beta (-p)
    let best' := min best e
    let beta' := min beta e
    if beta' ≤ alpha then best'
    else specRankedABMinF rec p alpha rest b best' beta'

/-- Modelled from the spec: the same recursion as `pureAB` but ranking the
candidates by threat before the 10-move truncation at every recursive ply,
as §4.4/§4.6 of the spec describe. -/
def specRankedAB (b : Board) (d : Nat) (maxing : Bool) (alpha beta : Score)
    (p : Int) : Score :=
  match d with
  | 0 => val (evaluateBoard b p)
  | d' + 1 =>
    if isGameOver b then val (evaluateBoard b p)
    else
      let ms := ((sortMovesByThreat b (getPossibleMoves b) p).1.take 10)
      if maxing then
        specRankedABMaxF
          (fun b' a' b'' p' => specRankedAB b' d' false a' b'' p') p beta
          ms b ⊥ alpha
      else
        specRankedABMinF
          (fun b' a' b'' p' => specRankedAB b' d' true a' b'' p') p alpha
          ms b ⊤ beta

/-- Maximizing fold of `npMinimax`, parametrised by the recursive call. -/
def npFoldMaxF (rec : Board → Int → Score) (p : Int) :
    List Move → Board → Score → Score
  | [], _, best => best
  | mv :: rest, b, best =>
    npFoldMaxF rec p rest b
      (max best (rec (setCell b mv.1 mv.2 p) (-p)))

/-- Minimizing fold of `npMinimax`, parametrised by the recursive call. -/
def npFoldMinF (rec : Board → Int → Score) (p : Int) :
    List Move → Board → Score → Score
  | [], _, best => best
  | mv :: rest, b, best =>
    npFoldMinF rec p rest b
      (min best (rec (setCell b mv.1 mv.2 p) (-p)))

/-- Modelled from the spec (§8, monotonic pruning correctness): exhaustive
depth-limited minimax without pruning over the same truncated candidate
lists as the code. -/
def npMinimax (b : Board) (d : Nat) (maxing : Bool) (p : Int) : Score :=
  match d with
  | 0 => val (evaluateBoard b p)
  | d' + 1 =>
    if isGameOver b then val (evaluateBoard b p)
    else if maxing then
      npFoldMaxF (fun b' p' => npMinimax b' d' false p') p
        ((getPossibleMoves b).take 10) b ⊥
    else
      npFoldMinF (fun b' p' => npMinimax b' d' true p') p
        ((getPossibleMoves b).take 10) b ⊤

/-- Maximizing fold of `npMinimax` at depth `d'`. -/
def npFoldMax (p : Int) (d' : Nat) : List Move → Board → Score → Score :=
  npFoldMaxF (fun b' p' => npMinimax b' d' false p') p

/-- Minimizing fold of `npMinimax` at depth `d'`. -/
def npFoldMin (p : Int) (d' : Nat) : List Move → Board → Score → Score :=
  npFoldMinF (fun b' p' => npMinimax b' d' true p') p

/-- The root loop of `get_move` written over `pureAB` child values: same
strict improvement test and alpha update as the code. -/
def pureABRootLoop (p : Int) (d : Nat) :
    List Move → Board → Score → Option Move → Score → Option Move × Score
  | [], _, best, bestMv, _ => (bestMv, best)
  | mv :: rest, b, best, bestMv, alpha =>
    let e := pureAB (setCell b mv.1 mv.2 p) (d - 1) false alpha ⊤ (-p)
    let bm := if best < e then (e, some mv) else (best, bestMv)
    pureABRootLoop p d rest b bm.1 bm.2 (max alpha bm.1)

/-- The root search written over `pureAB`: ranked candidates truncated to
20 and the pure root loop. -/
def pureABRoot (b : Board) (p : Int) (d : Nat) : Option Move × Score :=
  pureABRootLoop p d
    ((sortMovesByThreat b (getPossibleMoves b) p).1.take 20) b ⊥ none ⊥

/-- Modelled from the spec (§8): the root loop of `get_move` over
exhaustive unpruned minimax values with the identical strict improvement
test. -/
def npRootLoop (p : Int) (d : Nat) :
    List Move → Board → Score → Option Move → Option Move × Score
  | [], _, best, bestMv => (bestMv, best)
  | mv :: rest, b, best, bestMv =>
    let e := npMinimax (setCell b mv.1 mv.2 p) (d - 1) false (-p)
    let bm := if best < e then (e, some mv) else (best, bestMv)
    npRootLoop p d rest b bm.1 bm.2

/-- Modelled from the spec (§8): the root search without pruning over the
same ranked, truncated candidate list. -/
def npRoot (b : Board) (p : Int) (d : Nat) : Option Move × Score :=
  npRootLoop p d
    ((sortMovesByThreat b (getPossibleMoves b) p).1.take 20) b ⊥ none

/-! ## Well-formedness and counting -/

/-- `b` is a rectangular `H × W` board. -/
def Rect (b : Board) (H W : Nat) : Prop :=
  b.length = H ∧ ∀ k, k < H → (b.getD k []).length = W

instance (b : Board) (H W : Nat) : Decidable (Rect b H W) :=
  decidable_of_iff
    (b.length = H ∧ ∀ k, k < H → (b.getD k []).length = W) Iff.rfl

/-- Number of empty cells on the board. -/
def countEmpty (b : Board) : Nat := (b.map (List.count 0)).sum

/-! ## Unfolding equations for the search recursions -/

theorem minimax_zero (b : Board) (m : Bool) (alpha beta : Score) (p : Int) :
    minimax b 0 m alpha beta p = (val (evaluateBoard b p), b) := rfl

theorem minimax_succ (b : Board) (d' : Nat) (m : Bool)
    (alpha beta : Score) (p : Int) :
    minimax b (d' + 1) m alpha beta p =
      if isGameOver b then (val (evaluateBoard b p), b)
      else if m then
        maxLoop p beta d' ((getPossibleMoves b).take 10) b ⊥ alpha
      else
        minLoop p alpha d' ((getPossibleMoves b).take 10) b ⊤ beta := rfl

theorem maxLoop_nil (p : Int) (beta : Score) (d' : Nat) (b : Board)
    (best alpha : Score) : maxLoop p beta d' [] b best alpha = (best, b) :=
  rfl

theorem maxLoop_cons (p : Int) (beta : Score) (d' : Nat) (mv : Move)
    (rest : List Move) (b : Board) (best alpha : Score) :
    maxLoop p beta d' (mv :: rest) b best alpha =
      (let eb := minimax (setCell b mv.1 mv.2 p) d' false alpha beta (-p)
       let b2 := setCell eb.2 mv.1 mv.2 0
       let best' := max best eb.1
       let alpha' := max alpha eb.1
       if beta ≤ alpha' then (best', b2)
       else maxLoop p beta d' rest b2 best' alpha') := rfl

theorem minLoop_nil (p : Int) (alpha : Score) (d' : Nat) (b : Board)
    (best beta : Score) : minLoop p alpha d' [] b best beta = (best, b) :=
  rfl

theorem minLoop_cons (p : Int) (alpha : Score) (d' : Nat) (mv : Move)
    (rest : List Move) (b : Board) (best beta : Score) :
    minLoop p alpha d' (mv :: rest) b best beta =
      (let eb := minimax (setCell b mv.1 mv.2 p) d' true alpha beta (-p)
       let b2 := setCell eb.2 mv.1 mv.2 0
       let best' := min best eb.1
       let beta' := min beta eb.1
       if beta' ≤ alpha then (best', b2)
       else minLoop p alpha d' rest b2 best' beta') := rfl

theorem pureAB_zero (b : Board) (m : Bool) (alpha beta : Score) (p : Int) :
    pureAB b 0 m alpha beta p = val (evaluateBoard b p) := rfl

theorem pureAB_succ (b : Board) (d' : Nat) (m : Bool)
    (alpha beta : Score) (p : Int) :
    pureAB b (d' + 1) m alpha beta p =
      if isGameOver b then val (evaluateBoard b p)
      else if m then
        pureABMax p beta d' ((getPossibleMoves b).take 10) b ⊥ alpha
      else
        pureABMin p alpha d' ((getPossibleMoves b).take 10) b ⊤ beta := rfl

theorem pureABMax_nil (p : Int) (beta : Score) (d' : Nat) (b : Board)
    (best alpha : Score) : pureABMax p beta d' [] b best alpha = best := rfl

theorem pureABMax_cons (p : Int) (beta : Score) (d' : Nat) (mv : Move)
    (rest : List Move) (b : Board) (best alpha : Score) :
    pureABMax p beta d' (mv :: rest) b best alpha =
      (let e := pureAB (setCell b mv.1 mv.2 p) d' false alpha beta (-p)
       let best' := max best e
       let alpha' := max alpha e
       if beta ≤ alpha' then best'
       else pureABMax p beta d' rest b best' alpha') := rfl

theorem pureABMin_nil (p : Int) (alpha : Score) (d' : Nat) (b : Board)
    (best beta : Score) : pureABMin p alpha d' [] b best beta = best := rfl

theorem pureABMin_cons (p : Int) (alpha : Score) (d' : Nat) (mv : Move)
    (rest : List Move) (b : Board) (best beta : Score) :
    pureABMin p alpha d' (mv :: rest) b best beta =
      (let e := pureAB (setCell b mv.1 mv.2 p) d' true alpha beta (-p)
       let best' := min best e
       let beta' := min beta e
       if beta' ≤ alpha then best'
       else pureABMin p alpha d' rest b best' beta') := rfl

theorem npMinimax_zero (b : Board) (m : Bool) (p : Int) :
    npMinimax b 0 m p = val (evaluateBoard b p) := rfl

theorem npMinimax_succ (b : Board) (d' : Nat) (m : Bool) (p : Int) :
    npMinimax b (d' + 1) m p =
      if isGameOver b then val (evaluateBoard b p)
      else if m then
        npFoldMax p d' ((getPossibleMoves b).take 10) b ⊥
      else
        npFoldMin p d' ((getPossibleMoves b).take 10) b ⊤ := rfl

theorem npFoldMax_nil (p : Int) (d' : Nat) (b : Board) (best : Score) :
    npFoldMax p d' [] b best = best := rfl

theorem npFoldMax_cons (p : Int) (d' : Nat) (mv : Move)
    (rest : List Move) (b : Board) (best : Score) :
    npFoldMax p d' (mv :: rest) b best =
      npFoldMax p d' rest b
        (max best (npMinimax (setCell b mv.1 mv.2 p) d' false (-p))) := rfl

theorem npFoldMin_nil (p : Int) (d' : Nat) (b : Board) (best : Score) :
    npFoldMin p d' [] b best = best := rfl

theorem npFoldMin_cons (p : Int) (d' : Nat) (mv : Move)
    (rest : List Move) (b : Board) (best : Score) :
    npFoldMin p d' (mv :: rest) b best =
      npFoldMin p d' rest b
        (min best (npMinimax (setCell b mv.1 mv.2 p) d' true (-p))) := rfl

/-! ## Basic board lemmas -/

theorem set_self_eq {α : Type} (l : List α) (i : Nat) (h : i < l.length) :
    l.set i l[i] = l := by
  apply List.ext_getElem
  · simp
  · intro n h1 h2
    rw [List.getElem_set]
    split
    · subst ‹i = n›; rfl
    · rfl

theorem getD_set_self {α : Type} (l : List α) (i : Nat) (x d : α)
    (h : i < l.length) : (l.set i x).getD i d = x := by
  rw [List.getD_eq_getElem?_getD, List.getElem?_set]
  simp [h]

theorem getD_set_ne {α : Type} (l : List α) {i k : Nat} (x d : α)
    (h : i ≠ k) : (l.set i x).getD k d = l.getD k d := by
  rw [List.getD_eq_getElem?_getD, List.getElem?_set_ne h,
    ← List.getD_eq_getElem?_getD]

theorem rect_setCell {b : Board} {H W : Nat} (hb : Rect b H W)
    (r c : Nat) (v : Int) : Rect (setCell b r c v) H W := by
  obtain ⟨hlen, hrow⟩ := hb
  refine ⟨by simp [setCell, hlen], fun k hk => ?_⟩
  by_cases hrk : r = k
  · subst hrk
    by_cases hr : r < b.length
    · rw [setCell, getD_set_self _ _ _ _ (by simpa using hr)]
      simpa using hrow r hk
    · rw [setCell, List.set_eq_of_length_le (by omega)]
      exact hrow r hk
  · rw [setCell, getD_set_ne _ _ _ hrk]
    exact hrow k hk

theorem setCell_restore {b : Board} {r c : Nat} (v : Int)
    (h0 : cell b r c = 0) : setCell (setCell b r c v) r c 0 = b := by
  by_cases hr : r < b.length
  · have hrow : b.getD r [] = b[r] := by
      rw [List.getD_eq_getElem?_getD, List.getElem?_eq_getElem hr]; rfl
    rw [setCell, setCell,
      getD_set_self _ _ _ _ (by simpa using hr), List.set_set, List.set_set]
    have hset : (b.getD r []).set c 0 = b.getD r [] := by
      by_cases hc : c < (b.getD r []).length
      · have hcell : (b.getD r [])[c] = 0 := by
          have h1 := h0
          rw [cell, List.getD_eq_getElem?_getD,
            List.getElem?_eq_getElem hc] at h1
          simpa using h1
        have h2 := set_self_eq (b.getD r []) c hc
        rwa [hcell] at h2
      · exact List.set_eq_of_length_le (by omega)
    rw [hset, hrow, set_self_eq _ _ hr]
  · have h1 : setCell b r c v = b := by
      rw [setCell, List.set_eq_of_length_le (by omega)]
    rw [h1, setCell, List.set_eq_of_length_le (by omega)]

theorem row_count_set {row : List Int} {c : Nat} {v : Int}
    (h : c < row.length) (h0 : row[c] = 0) (hv : v ≠ 0) :
    (row.set c v).count 0 + 1 = row.count 0 := by
  induction row generalizing c with
  | nil => simp at h
  | cons x xs ih =>
    cases c with
    | zero =>
      simp only [List.getElem_cons_zero] at h0
      subst h0
      simp [List.count_cons, hv]
    | succ c =>
      simp only [List.getElem_cons_succ] at h0
      have := ih (by simpa using h) h0
      simp only [List.set_cons_succ, List.count_cons]
      omega

theorem cell_cons_zero (row : List Int) (rest : Board) (c : Nat) :
    cell (row :: rest) 0 c = row.getD c 0 := rfl

theorem cell_cons_succ (row : List Int) (rest : Board) (r c : Nat) :
    cell (row :: rest) (r + 1) c = cell rest r c := rfl

theorem getD_cons_zero' (row : List Int) (rest : Board) :
    List.getD (row :: rest) 0 [] = row := rfl

theorem getD_cons_succ' (row : List Int) (rest : Board) (r : Nat) :
    List.getD (row :: rest) (r + 1) [] = List.getD rest r [] := rfl

theorem setCell_cons_zero (row : List Int) (rest : Board) (c : Nat)
    (v : Int) : setCell (row :: rest) 0 c v = row.set c v :: rest := rfl

theorem setCell_cons_succ (row : List Int) (rest : Board) (r c : Nat)
    (v : Int) :
    setCell (row :: rest) (r + 1) c v = row :: setCell rest r c v := rfl

theorem rect_tail {row : List Int} {rest : Board} {H W : Nat}
    (hb : Rect (row :: rest) H W) : Rect rest (H - 1) W := by
  obtain ⟨hlen, hrow⟩ := hb
  refine ⟨by simp at hlen; omega, fun k hk => ?_⟩
  have := hrow (k + 1) (by omega)
  rwa [getD_cons_succ'] at this

theorem countEmpty_setCell {b : Board} {H W : Nat} (hb : Rect b H W)
    {r c : Nat} {v : Int} (hr : r < H) (hc : c < W)
    (h0 : cell b r c = 0) (hv : v ≠ 0) :
    countEmpty (setCell b r c v) + 1 = countEmpty b := by
  induction b generalizing r H with
  | nil => obtain ⟨hlen, _⟩ := hb; simp at hlen; omega
  | cons row rest ih =>
    obtain ⟨hlen, hrow⟩ := hb
    cases r with
    | zero =>
      have hH : 0 < H := by simp at hlen; omega
      have hcl : c < row.length := by
        have := hrow 0 hH
        rw [getD_cons_zero'] at this
        omega
      have hcell : row[c] = 0 := by
        have h1 := h0
        rw [cell_cons_zero, List.getD_eq_getElem?_getD,
          List.getElem?_eq_getElem hcl] at h1
        simpa using h1
      have hrc := row_count_set hcl hcell hv
      rw [setCell_cons_zero]
      simp only [countEmpty, List.map_cons, List.sum_cons]
      omega
    | succ r =>
      have hbt : Rect rest (H - 1) W := rect_tail ⟨hlen, hrow⟩
      have h0' : cell rest r c = 0 := h0
      have := ih hbt (by omega) h0'
      rw [setCell_cons_succ]
      simp only [countEmpty, List.map_cons, List.sum_cons]
      simp only [countEmpty] at this
      omega

theorem exists_empty_of_countEmpty_pos {b : Board} {H W : Nat}
    (hb : Rect b H W) (h : 1 ≤ countEmpty b) :
    ∃ r c, r < H ∧ c < W ∧ cell b r c = 0 := by
  induction b generalizing H with
  | nil => simp [countEmpty] at h
  | cons row rest ih =>
    obtain ⟨hlen, hrow⟩ := hb
    have hH : 0 < H := by simp at hlen; omega
    by_cases hrc : 0 < row.count 0
    · have hmem : (0 : Int) ∈ row := List.count_pos_iff.mp hrc
      obtain ⟨c, hc, hcell⟩ := List.mem_iff_getElem.mp hmem
      refine ⟨0, c, hH, ?_, ?_⟩
      · have := hrow 0 hH
        rw [getD_cons_zero'] at this
        omega
      · rw [cell_cons_zero, List.getD_eq_getElem?_getD,
          List.getElem?_eq_getElem hc]
        simpa using hcell
    · have hrest : 1 ≤ countEmpty rest := by
        simp only [countEmpty, List.map_cons, List.sum_cons] at h ⊢
        omega
      have hbt : Rect rest (H - 1) W := rect_tail ⟨hlen, hrow⟩
      obtain ⟨r, c, hr, hc, hcell⟩ := ih hbt hrest
      exact ⟨r + 1, c, by omega, hc, hcell⟩

theorem rows_eq {b : Board} {H W : Nat} (hb : Rect b H W) : rows b = H :=
  hb.1

theorem cols_eq {b : Board} {H W : Nat} (hb : Rect b H W) (hH : 0 < H) :
    cols b = W := hb.2 0 hH

/-- A stone within Chebyshev distance 2 of an in-bounds position makes
`_has_neighbor` report true. -/
theorem hasNeighbor_of_stone {b : Board} {H W : Nat} (hb : Rect b H W)
    {i j a e : Nat} (ha : a < H) (he : e < W)
    (h1 : i ≤ a + 2) (h2 : a ≤ i + 2) (h3 : j ≤ e + 2) (h4 : e ≤ j + 2)
    (hst : cell b a e ≠ 0) : hasNeighbor b i j = true := by
  have hr := rows_eq hb
  have hc := cols_eq hb (by omega)
  rw [hasNeighbor, List.any_eq_true]
  refine ⟨a, ?_, ?_⟩
  · rw [List.mem_range'_1]
    constructor
    · omega
    · rw [hr]; omega
  · rw [List.any_eq_true]
    refine ⟨e, ?_, ?_⟩
    · rw [List.mem_range'_1]
      constructor
      · omega
      · rw [hc]; omega
    · simpa using hst

/-- If the board holds both a stone and an empty cell, some empty cell has
a stone within the neighbour window (walking a lattice path from the stone
to the empty cell, the first empty cell encountered qualifies). -/
theorem scan_witness_of_stone_and_empty {b : Board} {H W : Nat}
    (hb : Rect b H W) :
    ∀ dist r1 c1 r2 c2, r1 < H → c1 < W → r2 < H → c2 < W →
      cell b r1 c1 ≠ 0 → cell b r2 c2 = 0 →
      (max r1 r2 - min r1 r2) + (max c1 c2 - min c1 c2) ≤ dist →
      ∃ i j, i < H ∧ j < W ∧ cell b i j = 0 ∧ hasNeighbor b i j = true := by
  intro dist
  induction dist with
  | zero =>
    intro r1 c1 r2 c2 hr1 hc1 hr2 hc2 hst hemp hd
    have : r1 = r2 ∧ c1 = c2 := by omega
    rw [this.1, this.2] at hst
    exact absurd hemp hst
  | succ d ih =>
    intro r1 c1 r2 c2 hr1 hc1 hr2 hc2 hst hemp hd
    by_cases heq : r1 = r2 ∧ c1 = c2
    · rw [heq.1, heq.2] at hst
      exact absurd hemp hst
    · -- one lattice step from the stone toward the empty cell
      obtain ⟨r', c', hr', hc', hstep1, hstep2, hdist⟩ :
          ∃ r' c', r' < H ∧ c' < W ∧ r1 ≤ r' + 1 ∧ r' ≤ r1 + 1 ∧
            c1 ≤ c' + 2 ∧ c' ≤ c1 + 2 ∧
            (max r' r2 - min r' r2) + (max c' c2 - min c' c2) ≤ d := by
        rcases Nat.lt_trichotomy r1 r2 with h | h | h
        · exact ⟨r1 + 1, c1, by omega, hc1, by omega, by omega, by omega,
            by omega, by omega⟩
        · rcases Nat.lt_trichotomy c1 c2 with h' | h' | h'
          · exact ⟨r1, c1 + 1, hr1, by omega, by omega, by omega, by omega,
              by omega, by omega⟩
          · exact absurd ⟨h, h'⟩ heq
          · exact ⟨r1, c1 - 1, hr1, by omega, by omega, by omega, by omega,
              by omega, by omega⟩
        · exact ⟨r1 - 1, c1, by omega, hc1, by omega, by omega, by omega,
            by omega, by omega⟩
      obtain ⟨hs3, hs4, hdist'⟩ := hdist
      by_cases hcell : cell b r' c' = 0
      · exact ⟨r', c', hr', hc',
          hcell, hasNeighbor_of_stone hb hr1 hc1 (by omega) (by omega)
            (by omega) (by omega) hst⟩
      · exact ih r' c' r2 c2 hr' hc' hr2 hc2 hcell hemp hdist'

/-- Every generated candidate is an in-bounds empty cell, provided the
board has at least one empty cell (rules out the fallback returning the
occupied centre of a full board). -/
theorem movesOK {b : Board} {H W : Nat} (hb : Rect b H W) (hH : 0 < H)
    (hW : 0 < W) (hcnt : 1 ≤ countEmpty b) :
    ∀ mv ∈ getPossibleMoves b,
      mv.1 < H ∧ mv.2 < W ∧ cell b mv.1 mv.2 = 0 := by
  intro mv hmv
  rw [getPossibleMoves] at hmv
  set ms := (List.range (rows b)).flatMap fun i =>
    (List.range (cols b)).filterMap fun j =>
      if cell b i j == 0 && hasNeighbor b i j then some (i, j) else none
    with hms
  by_cases hemp : ms.isEmpty
  · rw [if_pos hemp] at hmv
    have hmv' : mv = (rows b / 2, cols b / 2) := by
      simpa using hmv
    have hrw := rows_eq hb
    have hcw := cols_eq hb hH
    refine ⟨by rw [hmv', hrw]; omega, by rw [hmv', hcw]; omega, ?_⟩
    by_contra hstone
    obtain ⟨r2, c2, hr2, hc2, hcell2⟩ :=
      exists_empty_of_countEmpty_pos hb hcnt
    obtain ⟨i, j, hi, hj, hcij, hnij⟩ :=
      scan_witness_of_stone_and_empty hb
        ((max (rows b / 2) r2 - min (rows b / 2) r2) +
          (max (cols b / 2) c2 - min (cols b / 2) c2))
        (rows b / 2) (cols b / 2) r2 c2 (by rw [hrw] at *; omega)
        (by rw [hcw] at *; omega) hr2 hc2
        (by rw [hmv'] at hstone; exact hstone) hcell2 le_rfl
    have : (i, j) ∈ ms := by
      rw [hms, List.mem_flatMap]
      refine ⟨i, List.mem_range.mpr (by rw [hrw]; omega), ?_⟩
      rw [List.mem_filterMap]
      refine ⟨j, List.mem_range.mpr (by rw [hcw]; omega), ?_⟩
      rw [if_pos (by simp [hcij, hnij])]
    rw [List.isEmpty_iff] at hemp
    rw [hemp] at this
    simp at this
  · rw [if_neg hemp] at hmv
    rw [hms, List.mem_flatMap] at hmv
    obtain ⟨i, hi, hmv⟩ := hmv
    rw [List.mem_filterMap] at hmv
    obtain ⟨j, hj, hcond⟩ := hmv
    by_cases hgate : cell b i j == 0 && hasNeighbor b i j
    · rw [if_pos hgate] at hcond
      have hij : mv = (i, j) := by simpa using hcond.symm
      rw [List.mem_range] at hi hj
      rw [rows_eq hb] at hi
      rw [cols_eq hb hH] at hj
      subst hij
      refine ⟨hi, hj, ?_⟩
      simp only [Bool.and_eq_true, beq_iff_eq] at hgate
      exact hgate.1
    · rw [if_neg hgate] at hcond
      simp at hcond

/-! ## Score lemmas -/

theorem val_max (a b : Int) : max (val a) (val b) = val (max a b) := by
  simp [val]

theorem val_min (a b : Int) : min (val a) (val b) = val (min a b) := by
  simp [val]

theorem bot_max_val (s : Score) : max ⊥ s = s := max_eq_right bot_le

theorem top_min_val (s : Score) : min ⊤ s = s := min_eq_right le_top

theorem bot_lt_val (a : Int) : (⊥ : Score) < val a := by simp [val]

theorem val_lt_top (a : Int) : val a < (⊤ : Score) :=
  (WithBot.coe_lt_coe).mpr (WithTop.coe_lt_top a)

theorem val_ne_bot (a : Int) : val a ≠ ⊥ := by simp [val]

/-! ## The search mutates and restores: `minimax` refines `pureAB` -/

theorem neg_ne_zero_int {p : Int} (hp : p ≠ 0) : -p ≠ 0 := by omega

theorem getPossibleMoves_take_sub (b : Board) (n : Nat) :
    ∀ mv ∈ (getPossibleMoves b).take n, mv ∈ getPossibleMoves b :=
  fun _ h => List.take_subset _ _ h

/-- The code's `_minimax` computes exactly the pure alpha-beta value and
returns the board unchanged, whenever the search cannot run out of empty
cells (`d ≤ countEmpty b`). -/
theorem minimax_eq_pure {H W : Nat} (hH : 0 < H) (hW : 0 < W) :
    ∀ d (b : Board) (m : Bool) (alpha beta : Score) (p : Int),
      Rect b H W → p ≠ 0 → d ≤ countEmpty b →
      minimax b d m alpha beta p = (pureAB b d m alpha beta p, b) := by
  intro d
  induction d with
  | zero =>
    intro b m alpha beta p _ _ _
    rw [minimax_zero, pureAB_zero]
  | succ d' ih =>
    intro b m alpha beta p hb hp hd
    have hcnt1 : 1 ≤ countEmpty b := by omega
    have hmv := movesOK hb hH hW hcnt1
    by_cases hgo : isGameOver b
    · rw [minimax_succ, pureAB_succ]
      simp [hgo]
    · have loopMax : ∀ (l : List Move) (best alpha' : Score),
          (∀ mv ∈ l, mv.1 < H ∧ mv.2 < W ∧ cell b mv.1 mv.2 = 0) →
          maxLoop p beta d' l b best alpha' =
            (pureABMax p beta d' l b best alpha', b) := by
        intro l
        induction l with
        | nil => intro best alpha' _; rw [maxLoop_nil, pureABMax_nil]
        | cons mv rest ihl =>
          intro best alpha' hcond
          obtain ⟨h1, h2, h3⟩ := hcond mv (List.mem_cons_self mv rest)
          have hb' : Rect (setCell b mv.1 mv.2 p) H W := rect_setCell hb _ _ _
          have hce := countEmpty_setCell hb h1 h2 h3 hp
          have hrec := ih (setCell b mv.1 mv.2 p) false alpha' beta (-p) hb'
            (neg_ne_zero_int hp) (by omega)
          rw [maxLoop_cons, pureABMax_cons]
          simp only [hrec, setCell_restore p h3]
          by_cases hbr : beta ≤
              max alpha' (pureAB (setCell b mv.1 mv.2 p) d' false alpha' beta (-p))
          · rw [if_pos hbr, if_pos hbr]
          · rw [if_neg hbr, if_neg hbr]
            exact ihl _ _ fun x hx => hcond x (List.mem_cons_of_mem _ hx)
      have loopMin : ∀ (l : List Move) (best beta' : Score),
          (∀ mv ∈ l, mv.1 < H ∧ mv.2 < W ∧ cell b mv.1 mv.2 = 0) →
          minLoop p alpha d' l b best beta' =
            (pureABMin p alpha d' l b best beta', b) := by
        intro l
        induction l with
        | nil => intro best beta' _; rw [minLoop_nil, pureABMin_nil]
        | cons mv rest ihl =>
          intro best beta' hcond
          obtain ⟨h1, h2, h3⟩ := hcond mv (List.mem_cons_self mv rest)
          have hb' : Rect (setCell b mv.1 mv.2 p) H W := rect_setCell hb _ _ _
          have hce := countEmpty_setCell hb h1 h2 h3 hp
          have hrec := ih (setCell b mv.1 mv.2 p) true alpha beta' (-p) hb'
            (neg_ne_zero_int hp) (by omega)
          rw [minLoop_cons, pureABMin_cons]
          simp only [hrec, setCell_restore p h3]
          by_cases hbr :
              min beta' (pureAB (setCell b mv.1 mv.2 p) d' true alpha beta' (-p))
                ≤ alpha
          · rw [if_pos hbr, if_pos hbr]
          · rw [if_neg hbr, if_neg hbr]
            exact ihl _ _ fun x hx => hcond x (List.mem_cons_of_mem _ hx)
      rw [minimax_succ, pureAB_succ]
      simp only [hgo, if_false, Bool.false_eq_true]
      cases m with
      | true =>
        simp only [if_true]
        exact loopMax _ _ _ fun x hx =>
          hmv x (getPossibleMoves_take_sub b 10 x hx)
      | false =>
        simp only [if_false, Bool.false_eq_true]
        exact loopMin _ _ _ fun x hx =>
          hmv x (getPossibleMoves_take_sub b 10 x hx)

theorem row_set_zero_self {row : List Int} {c : Nat}
    (h : row.getD c 0 = 0) : row.set c 0 = row := by
  by_cases hc : c < row.length
  · have hcell : row[c] = 0 := by
      rw [List.getD_eq_getElem?_getD, List.getElem?_eq_getElem hc] at h
      simpa using h
    have h2 := set_self_eq row c hc
    rwa [hcell] at h2
  · exact List.set_eq_of_length_le (by omega)

theorem setCell_empty_self {b : Board} {r c : Nat}
    (h0 : cell b r c = 0) : setCell b r c 0 = b := by
  by_cases hr : r < b.length
  · have hrow : b.getD r [] = b[r] := by
      rw [List.getD_eq_getElem?_getD, List.getElem?_eq_getElem hr]; rfl
    rw [setCell, row_set_zero_self h0, hrow, set_self_eq _ _ hr]
  · rw [setCell, List.set_eq_of_length_le (by omega)]

theorem scoreMoves_board (p : Int) :
    ∀ (l : List Move) (b : Board),
      (∀ mv ∈ l, cell b mv.1 mv.2 = 0) → (scoreMoves p l b).2 = b := by
  intro l
  induction l with
  | nil => intro b _; rfl
  | cons mv rest ih =>
    intro b hcond
    have h0 := (hcond mv (List.mem_cons_self mv rest))
    rw [scoreMoves]
    simp only [setCell_empty_self h0]
    exact ih b fun x hx => hcond x (List.mem_cons_of_mem _ hx)

theorem sortMovesByThreat_board {b : Board} {l : List Move} {p : Int}
    (hcond : ∀ mv ∈ l, cell b mv.1 mv.2 = 0) :
    (sortMovesByThreat b l p).2 = b := by
  rw [sortMovesByThreat]
  simp only []
  exact scoreMoves_board p l b hcond

theorem scoreMoves_fst (p : Int) :
    ∀ (l : List Move) (b : Board), (scoreMoves p l b).1.map Prod.fst = l := by
  intro l
  induction l with
  | nil => intro b; rfl
  | cons mv rest ih =>
    intro b
    rw [scoreMoves]
    simp only [List.map_cons]
    rw [ih]

theorem mem_insertDesc (x y : Move × Int) :
    ∀ l, y ∈ insertDesc x l → y = x ∨ y ∈ l := by
  intro l
  induction l with
  | nil => intro h; simp [insertDesc] at h; exact Or.inl h
  | cons z zs ih =>
    intro h
    rw [insertDesc] at h
    by_cases hc : x.2 < z.2
    · rw [if_pos hc] at h
      rcases List.mem_cons.mp h with h | h
      · exact Or.inr (List.mem_cons.mpr (Or.inl h))
      · rcases ih h with h | h
        · exact Or.inl h
        · exact Or.inr (List.mem_cons.mpr (Or.inr h))
    · rw [if_neg hc] at h
      rcases List.mem_cons.mp h with h | h
      · exact Or.inl h
      · exact Or.inr h

theorem mem_stableSortDesc (y : Move × Int) :
    ∀ l, y ∈ stableSortDesc l → y ∈ l := by
  intro l
  induction l with
  | nil => intro h; simp [stableSortDesc] at h
  | cons x xs ih =>
    intro h
    rw [stableSortDesc] at h
    rcases mem_insertDesc x y _ h with h | h
    · exact List.mem_cons.mpr (Or.inl h)
    · exact List.mem_cons.mpr (Or.inr (ih h))

theorem sortMovesByThreat_mem {b : Board} {l : List Move} {p : Int} :
    ∀ mv ∈ (sortMovesByThreat b l p).1, mv ∈ l := by
  intro mv hmv
  rw [sortMovesByThreat] at hmv
  simp only [List.mem_map] at hmv
  obtain ⟨x, hx, hfst⟩ := hmv
  have hx' := mem_stableSortDesc x _ hx
  have : x.1 ∈ (scoreMoves p l b).1.map Prod.fst :=
    List.mem_map.mpr ⟨x, hx', rfl⟩
  rw [scoreMoves_fst] at this
  rwa [hfst] at this

/-- The root loop restores the board and computes the pure root values. -/
theorem rootLoop_eq_pure {H W : Nat} (hH : 0 < H) (hW : 0 < W)
    {b : Board} {p : Int} {d : Nat} (hb : Rect b H W) (hp : p ≠ 0)
    (hd : d ≤ countEmpty b) (hd1 : 1 ≤ countEmpty b) :
    ∀ (l : List Move) (best : Score) (bm : Option Move) (alpha : Score),
      (∀ mv ∈ l, mv.1 < H ∧ mv.2 < W ∧ cell b mv.1 mv.2 = 0) →
      rootLoop p d l b best bm alpha =
        ((pureABRootLoop p d l b best bm alpha).1,
          (pureABRootLoop p d l b best bm alpha).2, b) := by
  intro l
  induction l with
  | nil => intro best bm alpha _; rw [rootLoop, pureABRootLoop]
  | cons mv rest ih =>
    intro best bm alpha hcond
    obtain ⟨h1, h2, h3⟩ := hcond mv (List.mem_cons_self mv rest)
    have hb' : Rect (setCell b mv.1 mv.2 p) H W := rect_setCell hb _ _ _
    have hce := countEmpty_setCell hb h1 h2 h3 hp
    have hrec := minimax_eq_pure hH hW (d - 1) (setCell b mv.1 mv.2 p) false
      alpha ⊤ (-p) hb' (neg_ne_zero_int hp) (by omega)
    rw [rootLoop, pureABRootLoop]
    simp only [hrec, setCell_restore p h3]
    exact ih _ _ _ fun x hx => hcond x (List.mem_cons_of_mem _ hx)

/-- Lines 45–66 of `get_move` restore the board and compute the pure root
search. -/
theorem searchCore_eq_pure {H W : Nat} (hH : 0 < H) (hW : 0 < W)
    {b : Board} {p : Int} {d : Nat} (hb : Rect b H W) (hp : p ≠ 0)
    (hd : d ≤ countEmpty b) (hd1 : 1 ≤ countEmpty b) :
    searchCore b p d =
      ((pureABRoot b p d).1, (pureABRoot b p d).2, b) := by
  have hmv := movesOK hb hH hW hd1
  have hboard : (sortMovesByThreat b (getPossibleMoves b) p).2 = b :=
    sortMovesByThreat_board fun mv hm => (hmv mv hm).2.2
  rw [searchCore, pureABRoot]
  simp only [hboard]
  exact rootLoop_eq_pure hH hW hb hp hd hd1 _ _ _ _ fun x hx =>
    hmv x (sortMovesByThreat_mem x (List.take_subset _ _ hx))

/-! ## Search values are finite

The candidate generator never returns an empty list (the centre-cell
fallback), so every `max`/`min` accumulation sees at least one child and
every search value is a finite integer, never `±inf`. -/

theorem getPossibleMoves_ne_nil (b : Board) : getPossibleMoves b ≠ [] := by
  rw [getPossibleMoves]
  split
  · simp
  · rename_i h
    intro hnil
    exact h (by rw [hnil]; rfl)

theorem take_ten_ne_nil {l : List Move} (h : l ≠ []) : l.take 10 ≠ [] := by
  cases l with
  | nil => exact absurd rfl h
  | cons x xs => simp

theorem pureAB_fin :
    ∀ d (b : Board) (m : Bool) (alpha beta : Score) (p : Int),
      ∃ z : Int, pureAB b d m alpha beta p = val z := by
  intro d
  induction d with
  | zero => intro b m alpha beta p; exact ⟨_, by rw [pureAB_zero]⟩
  | succ d' ih =>
    intro b m alpha beta p
    by_cases hgo : isGameOver b
    · exact ⟨evaluateBoard b p, by rw [pureAB_succ]; simp [hgo, val]⟩
    · have hmaxfin : ∀ (l : List Move) (b0 : Board) (best alpha' : Score),
          ((∃ z, best = val z) ∨ (best = ⊥ ∧ l ≠ [])) →
          ∃ z, pureABMax p beta d' l b0 best alpha' = val z := by
        intro l
        induction l with
        | nil =>
          intro b0 best alpha' hinv
          rcases hinv with ⟨z, hz⟩ | ⟨_, hne⟩
          · exact ⟨z, by rw [pureABMax_nil]; exact hz⟩
          · exact absurd rfl hne
        | cons mv rest ihl =>
          intro b0 best alpha' hinv
          obtain ⟨ze, hze⟩ := ih (setCell b0 mv.1 mv.2 p) false alpha' beta (-p)
          have hfin : ∃ z, max best
              (pureAB (setCell b0 mv.1 mv.2 p) d' false alpha' beta (-p)) =
                val z := by
            rcases hinv with ⟨z, hz⟩ | ⟨hz, _⟩
            · exact ⟨max z ze, by rw [hz, hze, val_max]⟩
            · exact ⟨ze, by rw [hz, hze, bot_max_val]⟩
          rw [pureABMax_cons]
          simp only []
          split
          · exact hfin
          · exact ihl _ _ _ (Or.inl hfin)
      have hminfin : ∀ (l : List Move) (b0 : Board) (best beta' : Score),
          ((∃ z, best = val z) ∨ (best = ⊤ ∧ l ≠ [])) →
          ∃ z, pureABMin p alpha d' l b0 best beta' = val z := by
        intro l
        induction l with
        | nil =>
          intro b0 best beta' hinv
          rcases hinv with ⟨z, hz⟩ | ⟨_, hne⟩
          · exact ⟨z, by rw [pureABMin_nil]; exact hz⟩
          · exact absurd rfl hne
        | cons mv rest ihl =>
          intro b0 best beta' hinv
          obtain ⟨ze, hze⟩ := ih (setCell b0 mv.1 mv.2 p) true alpha beta' (-p)
          have hfin : ∃ z, min best
              (pureAB (setCell b0 mv.1 mv.2 p) d' true alpha beta' (-p)) =
                val z := by
            rcases hinv with ⟨z, hz⟩ | ⟨hz, _⟩
            · exact ⟨min z ze, by rw [hz, hze, val_min]⟩
            · exact ⟨ze, by rw [hz, hze, top_min_val]⟩
          rw [pureABMin_cons]
          simp only []
          split
          · exact hfin
          · exact ihl _ _ _ (Or.inl hfin)
      cases m with
      | true =>
        rw [pureAB_succ]
        simp only [hgo, if_false, if_true, Bool.false_eq_true]
        exact hmaxfin _ _ _ _ (Or.inr ⟨rfl,
          take_ten_ne_nil (getPossibleMoves_ne_nil b)⟩)
      | false =>
        rw [pureAB_succ]
        simp only [hgo, if_false, Bool.false_eq_true]
        exact hminfin _ _ _ _ (Or.inr ⟨rfl,
          take_ten_ne_nil (getPossibleMoves_ne_nil b)⟩)

theorem npMinimax_fin :
    ∀ d (b : Board) (m : Bool) (p : Int),
      ∃ z : Int, npMinimax b d m p = val z := by
  intro d
  induction d with
  | zero => intro b m p; exact ⟨_, by rw [npMinimax_zero]⟩
  | succ d' ih =>
    intro b m p
    by_cases hgo : isGameOver b
    · exact ⟨evaluateBoard b p, by rw [npMinimax_succ]; simp [hgo, val]⟩
    · have hmaxfin : ∀ (l : List Move) (b0 : Board) (best : Score),
          ((∃ z, best = val z) ∨ (best = ⊥ ∧ l ≠ [])) →
          ∃ z, npFoldMax p d' l b0 best = val z := by
        intro l
        induction l with
        | nil =>
          intro b0 best hinv
          rcases hinv with ⟨z, hz⟩ | ⟨_, hne⟩
          · exact ⟨z, by rw [npFoldMax_nil]; exact hz⟩
          · exact absurd rfl hne
        | cons mv rest ihl =>
          intro b0 best hinv
          obtain ⟨ze, hze⟩ := ih (setCell b0 mv.1 mv.2 p) false (-p)
          have hfin : ∃ z, max best
              (npMinimax (setCell b0 mv.1 mv.2 p) d' false (-p)) = val z := by
            rcases hinv with ⟨z, hz⟩ | ⟨hz, _⟩
            · exact ⟨max z ze, by rw [hz, hze, val_max]⟩
            · exact ⟨ze, by rw [hz, hze, bot_max_val]⟩
          rw [npFoldMax_cons]
          exact ihl _ _ (Or.inl hfin)
      have hminfin : ∀ (l : List Move) (b0 : Board) (best : Score),
          ((∃ z, best = val z) ∨ (best = ⊤ ∧ l ≠ [])) →
          ∃ z, npFoldMin p d' l b0 best = val z := by
        intro l
        induction l with
        | nil =>
          intro b0 best hinv
          rcases hinv with ⟨z, hz⟩ | ⟨_, hne⟩
          · exact ⟨z, by rw [npFoldMin_nil]; exact hz⟩
          · exact absurd rfl hne
        | cons mv rest ihl =>
          intro b0 best hinv
          obtain ⟨ze, hze⟩ := ih (setCell b0 mv.1 mv.2 p) true (-p)
          have hfin : ∃ z, min best
              (npMinimax (setCell b0 mv.1 mv.2 p) d' true (-p)) = val z := by
            rcases hinv with ⟨z, hz⟩ | ⟨hz, _⟩
            · exact ⟨min z ze, by rw [hz, hze, val_min]⟩
            · exact ⟨ze, by rw [hz, hze, top_min_val]⟩
          rw [npFoldMin_cons]
          exact ihl _ _ (Or.inl hfin)
      cases m with
      | true =>
        rw [npMinimax_succ]
        simp only [hgo, if_false, if_true, Bool.false_eq_true]
        exact hmaxfin _ _ _ (Or.inr ⟨rfl,
          take_ten_ne_nil (getPossibleMoves_ne_nil b)⟩)
      | false =>
        rw [npMinimax_succ]
        simp only [hgo, if_false, Bool.false_eq_true]
        exact hminfin _ _ _ (Or.inr ⟨rfl,
          take_ten_ne_nil (getPossibleMoves_ne_nil b)⟩)

/-! ## Alpha-beta pruning is sound: `pureAB` against `npMinimax` -/

theorem npFoldMax_init_le (p : Int) (d' : Nat) :
    ∀ (l : List Move) (b : Board) (T : Score), T ≤ npFoldMax p d' l b T := by
  intro l
  induction l with
  | nil => intro b T; rw [npFoldMax_nil]
  | cons mv rest ihl =>
    intro b T
    rw [npFoldMax_cons]
    exact le_trans (le_max_left _ _) (ihl b _)

theorem npFoldMin_le_init (p : Int) (d' : Nat) :
    ∀ (l : List Move) (b : Board) (T : Score), npFoldMin p d' l b T ≤ T := by
  intro l
  induction l with
  | nil => intro b T; rw [npFoldMin_nil]
  | cons mv rest ihl =>
    intro b T
    rw [npFoldMin_cons]
    exact le_trans (ihl b _) (min_le_left _ _)

/-- Fail-soft alpha-beta trichotomy: with a window `alpha < beta`, the
pruned value is an upper bound of the exhaustive value when it fails low,
a lower bound when it fails high, and exact when it lands strictly inside
the window. -/
theorem pureAB_tri :
    ∀ d (b : Board) (m : Bool) (alpha beta : Score) (p : Int), alpha < beta →
      (pureAB b d m alpha beta p ≤ alpha →
        npMinimax b d m p ≤ pureAB b d m alpha beta p) ∧
      (beta ≤ pureAB b d m alpha beta p →
        pureAB b d m alpha beta p ≤ npMinimax b d m p) ∧
      (alpha < pureAB b d m alpha beta p → pureAB b d m alpha beta p < beta →
        pureAB b d m alpha beta p = npMinimax b d m p) := by
  intro d
  induction d with
  | zero =>
    intro b m alpha beta p _
    rw [pureAB_zero, npMinimax_zero]
    exact ⟨fun _ => le_refl _, fun _ => le_refl _, fun _ _ => rfl⟩
  | succ d' ih =>
    intro b m alpha beta p hab
    by_cases hgo : isGameOver b
    · rw [pureAB_succ, npMinimax_succ]
      simp only [hgo, if_true]
      exact ⟨fun _ => le_refl _, fun _ => le_refl _, fun _ _ => by trivial⟩
    · have maxTri : ∀ (l : List Move) (b0 : Board) (R A T : Score),
          A = max alpha R → A < beta →
          (R ≤ alpha → T ≤ R) → (beta ≤ R → R ≤ T) →
          (alpha < R → R < beta → R = T) →
          (pureABMax p beta d' l b0 R A ≤ alpha →
            npFoldMax p d' l b0 T ≤ pureABMax p beta d' l b0 R A) ∧
          (beta ≤ pureABMax p beta d' l b0 R A →
            pureABMax p beta d' l b0 R A ≤ npFoldMax p d' l b0 T) ∧
          (alpha < pureABMax p beta d' l b0 R A →
            pureABMax p beta d' l b0 R A < beta →
            pureABMax p beta d' l b0 R A = npFoldMax p d' l b0 T) := by
        intro l
        induction l with
        | nil =>
          intro b0 R A T _ _ h1 h2 h3
          rw [pureABMax_nil, npFoldMax_nil]
          exact ⟨h1, h2, h3⟩
        | cons mv rest ihl =>
          intro b0 R A T hA hAb h1 h2 h3
          have hRA : R ≤ A := hA ▸ le_max_right alpha R
          obtain ⟨c1, c2, c3⟩ :=
            ih (setCell b0 mv.1 mv.2 p) false A beta (-p) hAb
          set e := pureAB (setCell b0 mv.1 mv.2 p) d' false A beta (-p)
            with he
          set tc := npMinimax (setCell b0 mv.1 mv.2 p) d' false (-p) with htc
          rw [pureABMax_cons, npFoldMax_cons]
          simp only [← he, ← htc]
          by_cases hbr : beta ≤ max A e
          · rw [if_pos hbr]
            have hbe : beta ≤ e := by
              rcases le_max_iff.mp hbr with h | h
              · exact absurd h (not_le.mpr hAb)
              · exact h
            have hetc : e ≤ tc := c2 hbe
            have hRe : R < e := lt_of_le_of_lt hRA (lt_of_lt_of_le hAb hbe)
            have hmax : max R e = e := max_eq_right hRe.le
            refine ⟨?_, ?_, ?_⟩
            · intro hle
              have : alpha < max R e :=
                lt_of_lt_of_le hab (hbe.trans (le_max_right R e))
              exact absurd hle (not_le.mpr this)
            · intro _
              calc max R e = e := hmax
                _ ≤ tc := hetc
                _ ≤ max T tc := le_max_right T tc
                _ ≤ npFoldMax p d' rest b0 (max T tc) :=
                    npFoldMax_init_le p d' rest b0 _
            · intro _ hlt
              exact absurd hlt
                (not_lt.mpr (hbe.trans (le_max_right R e)))
          · rw [if_neg hbr]
            push_neg at hbr
            refine ihl b0 (max R e) (max A e) (max T tc) ?_ hbr ?_ ?_ ?_
            · rw [hA]; exact max_assoc alpha R e
            · intro hle
              have hRle : R ≤ alpha := le_trans (le_max_left R e) hle
              have hele : e ≤ alpha := le_trans (le_max_right R e) hle
              have hAeq : A = alpha := by rw [hA]; exact max_eq_left hRle
              exact max_le_max (h1 hRle) (c1 (by rw [hAeq]; exact hele))
            · intro hb'
              have hRb : R < beta := lt_of_le_of_lt hRA hAb
              have hbe : beta ≤ e := by
                rcases le_max_iff.mp hb' with h | h
                · exact absurd h (not_le.mpr hRb)
                · exact h
              rw [max_eq_right (le_trans hRb.le hbe)]
              exact le_trans (c2 hbe) (le_max_right T tc)
            · intro ha' hb'
              by_cases hcase : e ≤ R
              · rw [max_eq_left hcase] at ha' hb' ⊢
                have hRT : R = T := h3 ha' hb'
                have hAR : A = R := by rw [hA]; exact max_eq_right ha'.le
                have htce : tc ≤ e := c1 (by rw [hAR]; exact hcase)
                rw [← hRT]
                exact (max_eq_left (le_trans htce hcase)).symm
              · push_neg at hcase
                rw [max_eq_right hcase.le] at ha' hb' ⊢
                have hAe : A < e := by rw [hA]; exact max_lt ha' hcase
                have hetc : e = tc := c3 hAe hb'
                have hTe : T ≤ e := by
                  by_cases hRa : R ≤ alpha
                  · exact le_trans (h1 hRa) hcase.le
                  · push_neg at hRa
                    rw [← h3 hRa (lt_of_le_of_lt hRA hAb)]
                    exact hcase.le
                rw [← hetc]
                exact (max_eq_right hTe).symm
      have minTri : ∀ (l : List Move) (b0 : Board) (R B T : Score),
          B = min beta R → alpha < B →
          (R ≤ alpha → T ≤ R) → (beta ≤ R → R ≤ T) →
          (alpha < R → R < beta → R = T) →
          (pureABMin p alpha d' l b0 R B ≤ alpha →
            npFoldMin p d' l b0 T ≤ pureABMin p alpha d' l b0 R B) ∧
          (beta ≤ pureABMin p alpha d' l b0 R B →
            pureABMin p alpha d' l b0 R B ≤ npFoldMin p d' l b0 T) ∧
          (alpha < pureABMin p alpha d' l b0 R B →
            pureABMin p alpha d' l b0 R B < beta →
            pureABMin p alpha d' l b0 R B = npFoldMin p d' l b0 T) := by
        intro l
        induction l with
        | nil =>
          intro b0 R B T _ _ h1 h2 h3
          rw [pureABMin_nil, npFoldMin_nil]
          exact ⟨h1, h2, h3⟩
        | cons mv rest ihl =>
          intro b0 R B T hB haB h1 h2 h3
          have hBR : B ≤ R := hB ▸ min_le_right beta R
          obtain ⟨c1, c2, c3⟩ :=
            ih (setCell b0 mv.1 mv.2 p) true alpha B (-p) haB
          set e := pureAB (setCell b0 mv.1 mv.2 p) d' true alpha B (-p)
            with he
          set tc := npMinimax (setCell b0 mv.1 mv.2 p) d' true (-p) with htc
          rw [pureABMin_cons, npFoldMin_cons]
          simp only [← he, ← htc]
          by_cases hbr : min B e ≤ alpha
          · rw [if_pos hbr]
            have hea : e ≤ alpha := by
              rcases min_le_iff.mp hbr with h | h
              · exact absurd h (not_le.mpr haB)
              · exact h
            have htce : tc ≤ e := c1 hea
            have heR : e < R := lt_of_le_of_lt hea (lt_of_lt_of_le haB hBR)
            have hmin : min R e = e := min_eq_right heR.le
            refine ⟨?_, ?_, ?_⟩
            · intro _
              calc npFoldMin p d' rest b0 (min T tc)
                  ≤ min T tc := npFoldMin_le_init p d' rest b0 _
                _ ≤ tc := min_le_right T tc
                _ ≤ e := htce
                _ = min R e := hmin.symm
            · intro hble
              have : min R e < beta :=
                lt_of_le_of_lt ((min_le_right R e).trans hea) hab
              exact absurd hble (not_le.mpr this)
            · intro ha' _
              exact absurd ha'
                (not_lt.mpr ((min_le_right R e).trans hea))
          · rw [if_neg hbr]
            push_neg at hbr
            refine ihl b0 (min R e) (min B e) (min T tc) ?_ hbr ?_ ?_ ?_
            · rw [hB]; exact min_assoc beta R e
            · intro hle
              have hRa : alpha < R :=
                lt_of_lt_of_le (lt_of_lt_of_le hbr (min_le_left B e)) hBR
              have hea : alpha < e :=
                lt_of_lt_of_le hbr (min_le_right B e)
              rcases min_le_iff.mp hle with h | h
              · exact absurd h (not_le.mpr hRa)
              · exact absurd h (not_le.mpr hea)
            · intro hble
              have hbR : beta ≤ R := le_trans hble (min_le_left R e)
              have hbe : beta ≤ e := le_trans hble (min_le_right R e)
              have hBe : B ≤ e := le_trans (hB ▸ min_le_left beta R) hbe
              exact min_le_min (h2 hbR) (c2 hBe)
            · intro ha' hb'
              by_cases hcase : R ≤ e
              · rw [min_eq_left hcase] at ha' hb' ⊢
                have hRT : R = T := h3 ha' hb'
                have hBeq : B = R := by rw [hB]; exact min_eq_right hb'.le
                have hetc : e ≤ tc := c2 (by rw [hBeq]; exact hcase)
                rw [← hRT]
                exact (min_eq_left (le_trans hcase hetc)).symm
              · push_neg at hcase
                rw [min_eq_right hcase.le] at ha' hb' ⊢
                have heB : e < B := by rw [hB]; exact lt_min hb' hcase
                have hetc : e = tc := c3 ha' heB
                have hTe : e ≤ T := by
                  by_cases hbR : beta ≤ R
                  · exact le_trans hcase.le (h2 hbR)
                  · push_neg at hbR
                    rw [← h3 (lt_of_lt_of_le haB hBR) hbR]
                    exact hcase.le
                rw [← hetc]
                exact (min_eq_right hTe).symm
      cases m with
      | true =>
        rw [pureAB_succ, npMinimax_succ]
        simp only [hgo, if_false, if_true, Bool.false_eq_true]
        exact maxTri _ _ ⊥ alpha ⊥ (max_eq_left bot_le).symm hab
          (fun _ => le_refl _) (fun _ => le_refl _)
          (fun h => absurd h (not_lt_bot))
      | false =>
        rw [pureAB_succ, npMinimax_succ]
        simp only [hgo, if_false, Bool.false_eq_true]
        exact minTri _ _ ⊤ beta ⊤ (min_eq_left le_top).symm hab
          (fun _ => le_top) (fun _ => le_refl _)
          (fun _ h => absurd h (not_top_lt))

/-- The root loop with alpha raised to the running best picks the same move
and score as the root loop over exhaustive minimax values. -/
theorem rootLoop_pure_eq_np (b : Board) (p : Int) (d : Nat) :
    ∀ (l : List Move) (best : Score) (bm : Option Move),
      (best = ⊥ ∨ ∃ z, best = val z) →
      pureABRootLoop p d l b best bm best = npRootLoop p d l b best bm := by
  intro l
  induction l with
  | nil =>
    intro best bm _
    rw [pureABRootLoop, npRootLoop]
  | cons mv rest ihl =>
    intro best bm hfin
    have hbtop : best < ⊤ := by
      rcases hfin with h | ⟨z, h⟩
      · rw [h]; exact bot_lt_top
      · rw [h]; exact val_lt_top z
    obtain ⟨c1, c2, c3⟩ :=
      pureAB_tri (d - 1) (setCell b mv.1 mv.2 p) false best ⊤ (-p) hbtop
    obtain ⟨ze, hze⟩ :=
      pureAB_fin (d - 1) (setCell b mv.1 mv.2 p) false best ⊤ (-p)
    set e := pureAB (setCell b mv.1 mv.2 p) (d - 1) false best ⊤ (-p) with he
    set tc := npMinimax (setCell b mv.1 mv.2 p) (d - 1) false (-p) with htc
    have hetop : e < ⊤ := by rw [hze]; exact val_lt_top ze
    rw [pureABRootLoop, npRootLoop]
    simp only [← he, ← htc]
    by_cases hup : best < tc
    · have hbe : best < e := by
        by_contra h
        push_neg at h
        exact absurd hup (not_lt.mpr ((c1 h).trans h))
      have het : e = tc := c3 hbe hetop
      rw [if_pos hbe, if_pos hup]
      simp only [max_eq_right hbe.le]
      rw [het]
      exact ihl tc (some mv) (Or.inr ⟨ze, by rw [← het, hze]⟩)
    · push_neg at hup
      have hbe : ¬ best < e := by
        intro h
        rw [c3 h hetop] at h
        exact absurd h (not_lt.mpr hup)
      rw [if_neg hbe, if_neg (not_lt.mpr hup)]
      simp only [max_self]
      exact ihl best bm hfin

/-- The pure root searches with and without pruning agree exactly. -/
theorem pureABRoot_eq_npRoot (b : Board) (p : Int) (d : Nat) :
    pureABRoot b p d = npRoot b p d := by
  rw [pureABRoot, npRoot]
  exact rootLoop_pure_eq_np b p d _ ⊥ none (Or.inl rfl)

/-! ## Cache-lookup lemmas -/

theorem lookup_append_of_none {α β : Type} [BEq α] (a : α) :
    ∀ (l1 l2 : List (α × β)), List.lookup a l1 = none →
      List.lookup a (l1 ++ l2) = List.lookup a l2 := by
  intro l1
  induction l1 with
  | nil => intro l2 _; simp
  | cons x xs ih =>
    intro l2 h
    obtain ⟨k, v⟩ := x
    rw [List.cons_append, List.lookup_cons]
    rw [List.lookup_cons] at h
    cases hk : a == k with
    | true => rw [hk] at h; simp at h
    | false => rw [hk] at h; exact ih l2 h

theorem lookup_singleton_self {α β : Type} [BEq α] [LawfulBEq α]
    (a : α) (v : β) : List.lookup a [(a, v)] = some v := by
  rw [List.lookup_cons]
  simp

theorem mem_of_lookup_eq_some {α β : Type} [BEq α] [LawfulBEq α]
    {a : α} {v : β} :
    ∀ {l : List (α × β)}, List.lookup a l = some v → (a, v) ∈ l := by
  intro l
  induction l with
  | nil => intro h; simp at h
  | cons x xs ih =>
    obtain ⟨k, w⟩ := x
    intro h
    rw [List.lookup_cons] at h
    cases hk : a == k with
    | true =>
      rw [hk] at h
      have hak : a = k := eq_of_beq hk
      have h' : some w = some v := h
      have hwv : w = v := Option.some.inj h'
      rw [hak, hwv]
      exact List.mem_cons_self _ _
    | false =>
      rw [hk] at h
      exact List.mem_cons_of_mem _ (ih h)

/-! ## The root search always returns a move -/

theorem insertDesc_length (x : Move × Int) :
    ∀ l, (insertDesc x l).length = l.length + 1 := by
  intro l
  induction l with
  | nil => rfl
  | cons y ys ih =>
    rw [insertDesc]
    split
    · simp [ih]
    · simp

theorem stableSortDesc_length :
    ∀ l, (stableSortDesc l).length = l.length := by
  intro l
  induction l with
  | nil => rfl
  | cons x xs ih =>
    rw [stableSortDesc, insertDesc_length, ih, List.length_cons]

theorem sortMovesByThreat_ne_nil {b : Board} {l : List Move} {p : Int}
    (h : l ≠ []) : (sortMovesByThreat b l p).1 ≠ [] := by
  rw [sortMovesByThreat]
  simp only []
  intro hnil
  have hlen := congrArg List.length hnil
  rw [List.length_map, stableSortDesc_length] at hlen
  have := congrArg List.length (scoreMoves_fst p l ((scoreMoves p l b).2))
  rw [List.length_map] at this
  have hlday := scoreMoves_fst p l b
  have : (scoreMoves p l b).1.length = l.length := by
    have := congrArg List.length (scoreMoves_fst p l b)
    simpa using this
  rw [this] at hlen
  exact h (List.length_eq_zero.mp (by simpa using hlen))

theorem take_pos_ne_nil {α : Type} {l : List α} (h : l ≠ []) (n : Nat) :
    l.take (n + 1) ≠ [] := by
  cases l with
  | nil => exact absurd rfl h
  | cons x xs => simp

/-- The value the code's `_minimax` returns is always a finite integer. -/
theorem minimax_fin :
    ∀ d (b : Board) (m : Bool) (alpha beta : Score) (p : Int),
      ∃ z : Int, (minimax b d m alpha beta p).1 = val z := by
  intro d
  induction d with
  | zero => intro b m alpha beta p; exact ⟨evaluateBoard b p, by rw [minimax_zero]⟩
  | succ d' ih =>
    intro b m alpha beta p
    by_cases hgo : isGameOver b
    · exact ⟨evaluateBoard b p, by rw [minimax_succ]; simp [hgo]⟩
    · have hmaxfin : ∀ (l : List Move) (b0 : Board) (best alpha' : Score),
          ((∃ z, best = val z) ∨ (best = ⊥ ∧ l ≠ [])) →
          ∃ z, (maxLoop p beta d' l b0 best alpha').1 = val z := by
        intro l
        induction l with
        | nil =>
          intro b0 best alpha' hinv
          rcases hinv with ⟨z, hz⟩ | ⟨_, hne⟩
          · exact ⟨z, by rw [maxLoop_nil]; exact hz⟩
          · exact absurd rfl hne
        | cons mv rest ihl =>
          intro b0 best alpha' hinv
          obtain ⟨ze, hze⟩ :=
            ih (setCell b0 mv.1 mv.2 p) false alpha' beta (-p)
          have hfin : ∃ z, max best
              (minimax (setCell b0 mv.1 mv.2 p) d' false alpha' beta (-p)).1 =
                val z := by
            rcases hinv with ⟨z, hz⟩ | ⟨hz, _⟩
            · exact ⟨max z ze, by rw [hz, hze, val_max]⟩
            · exact ⟨ze, by rw [hz, hze, bot_max_val]⟩
          rw [maxLoop_cons]
          simp only []
          split
          · exact hfin
          · exact ihl _ _ _ (Or.inl hfin)
      have hminfin : ∀ (l : List Move) (b0 : Board) (best beta' : Score),
          ((∃ z, best = val z) ∨ (best = ⊤ ∧ l ≠ [])) →
          ∃ z, (minLoop p alpha d' l b0 best beta').1 = val z := by
        intro l
        induction l with
        | nil =>
          intro b0 best beta' hinv
          rcases hinv with ⟨z, hz⟩ | ⟨_, hne⟩
          · exact ⟨z, by rw [minLoop_nil]; exact hz⟩
          · exact absurd rfl hne
        | cons mv rest ihl =>
          intro b0 best beta' hinv
          obtain ⟨ze, hze⟩ :=
            ih (setCell b0 mv.1 mv.2 p) true alpha beta' (-p)
          have hfin : ∃ z, min best
              (minimax (setCell b0 mv.1 mv.2 p) d' true alpha beta' (-p)).1 =
                val z := by
            rcases hinv with ⟨z, hz⟩ | ⟨hz, _⟩
            · exact ⟨min z ze, by rw [hz, hze, val_min]⟩
            · exact ⟨ze, by rw [hz, hze, top_min_val]⟩
          rw [minLoop_cons]
          simp only []
          split
          · exact hfin
          · exact ihl _ _ _ (Or.inl hfin)
      cases m with
      | true =>
        rw [minimax_succ]
        simp only [hgo, if_false, if_true, Bool.false_eq_true]
        exact hmaxfin _ _ _ _ (Or.inr ⟨rfl,
          take_ten_ne_nil (getPossibleMoves_ne_nil b)⟩)
      | false =>
        rw [minimax_succ]
        simp only [hgo, if_false, Bool.false_eq_true]
        exact hminfin _ _ _ _ (Or.inr ⟨rfl,
          take_ten_ne_nil (getPossibleMoves_ne_nil b)⟩)

theorem rootLoop_preserves_some (p : Int) (d : Nat) :
    ∀ (l : List Move) (b : Board) (best : Score) (bm : Option Move)
      (alpha : Score), bm.isSome = true →
      ((rootLoop p d l b best bm alpha).1).isSome = true := by
  intro l
  induction l with
  | nil => intro b best bm alpha h; rw [rootLoop]; exact h
  | cons mv rest ihl =>
    intro b best bm alpha h
    rw [rootLoop]
    apply ihl
    split
    · rfl
    · exact h

/-- The root search of `get_move` always selects a move: the candidate
list is never empty and the first candidate's finite score beats the
`-inf` initial best. -/
theorem searchCore_isSome (b : Board) (p : Int) (d : Nat) :
    ((searchCore b p d).1).isSome = true := by
  rw [searchCore]
  have hne : ((sortMovesByThreat b (getPossibleMoves b) p).1).take 20 ≠ [] :=
    take_pos_ne_nil (sortMovesByThreat_ne_nil (getPossibleMoves_ne_nil b)) 19
  obtain ⟨mv, rest, hcons⟩ := List.exists_cons_of_ne_nil hne
  rw [hcons, rootLoop]
  apply rootLoop_preserves_some
  obtain ⟨z, hz⟩ := minimax_fin (d - 1)
    (setCell ((sortMovesByThreat b (getPossibleMoves b) p).2) mv.1 mv.2 p)
    false ⊥ ⊤ (-p)
  rw [if_pos (by rw [hz]; exact bot_lt_val z)]
  rfl

/-! ## Characterisation of the per-direction alive check -/

theorem dirCheck_alive_iff (b : Board) (row col : Int) (p : Int)
    (length : Nat) (d : Int × Int) :
    dirCheck b row col p length true d = true ↔
      length ≤ dirCount b row col p d ∧
      inB b (row + d.1 * (dirCount b row col p d : Int))
        (col + d.2 * (dirCount b row col p d : Int)) = true ∧
      cellI b (row + d.1 * (dirCount b row col p d : Int))
        (col + d.2 * (dirCount b row col p d : Int)) = 0 ∧
      inB b (row - d.1 * (dirCount b row col p d : Int))
        (col - d.2 * (dirCount b row col p d : Int)) = true ∧
      cellI b (row - d.1 * (dirCount b row col p d : Int))
        (col - d.2 * (dirCount b row col p d : Int)) = 0 := by
  rw [dirCheck]
  by_cases h : length ≤ dirCount b row col p d
  · simp only [if_pos h, if_true]
    simp [h, Bool.and_eq_true, and_assoc]
  · simp only [if_neg h]
    simp [h]

/-- The per-move threat score is the sum of the fixed point weights of the
triggered patterns, reading the weights off `threatWeights` in priority
order. -/
theorem moveThreatScore_weights (b : Board) (mv : Move) (p : Int) :
    moveThreatScore b mv p =
      (if isGameOver (setCell b mv.1 mv.2 p) then threatWeights.getD 0 0
        else 0) +
      (if isGameOver (setCell b mv.1 mv.2 (-p)) then threatWeights.getD 1 0
        else 0) +
      (if countPattern (setCell b mv.1 mv.2 p) mv.1 mv.2 p 4 true then
        threatWeights.getD 2 0 else 0) +
      (if countPattern (setCell b mv.1 mv.2 (-p)) mv.1 mv.2 (-p) 4 true then
        threatWeights.getD 3 0 else 0) +
      (if countPattern (setCell b mv.1 mv.2 p) mv.1 mv.2 p 3 true then
        threatWeights.getD 6 0 else 0) +
      (if countPattern (setCell b mv.1 mv.2 (-p)) mv.1 mv.2 (-p) 3 true then
        threatWeights.getD 7 0 else 0) +
      (if countPattern (setCell b mv.1 mv.2 p) mv.1 mv.2 p 2 true then
        threatWeights.getD 10 0 else 0) +
      (if countPattern (setCell b mv.1 mv.2 (-p)) mv.1 mv.2 (-p) 2 true then
        threatWeights.getD 11 0 else 0) +
      (if countJumpPattern (setCell b mv.1 mv.2 p) mv.1 mv.2 p 3 then
        threatWeights.getD 8 0 else 0) +
      (if countJumpPattern (setCell b mv.1 mv.2 (-p)) mv.1 mv.2 (-p) 3 then
        threatWeights.getD 9 0 else 0) +
      (if countDoublePattern (setCell b mv.1 mv.2 p) mv.1 mv.2 p 3 then
        threatWeights.getD 4 0 else 0) +
      (if countDoublePattern (setCell b mv.1 mv.2 (-p)) mv.1 mv.2 (-p) 3 then
        threatWeights.getD 5 0 else 0) := rfl

/-! ## The claims -/

/-- C1: `_is_game_over` is claimed to return true iff either side has a
five-or-longer run anywhere on the board.  The code scans only from the
fixed cell `(0,0)`: it misses a black five in the middle of row 7, and it
reports a win on a board holding only four black stones below an empty
corner (the origin is counted regardless of its content). -/
theorem C1_terminal_win_check :
    isGameOver c1RunBoard = false ∧ specTerminalWin c1RunBoard = true ∧
    isGameOver c1FourBoard = true ∧ specTerminalWin c1FourBoard = false := by
  decide

/-- C2 (counterexample): on the completely full board the candidate
fallback returns the occupied centre cell, and `get_move` hands back a
board whose centre has been zeroed — the input board is mutated. -/
theorem C2_board_mutation_counterexample :
    (getMove (mkEngine "medium") onesBoard 1).2.1 ≠ onesBoard := by decide

/-- C2 (amended): after any `get_move` call the board equals its pre-call
content, provided the board has an empty cell and at least `depth`-many
empty cells, so the search never reaches a full board. -/
theorem C2_board_restored {st : AIState} {b : Board} {p : Int}
    (hb : Rect b 15 15) (hp : p ≠ 0) (hd : st.depth ≤ countEmpty b)
    (hd1 : 1 ≤ countEmpty b) : (getMove st b p).2.1 = b := by
  rw [getMove]
  split
  · rfl
  · split
    · rfl
    · simp only [searchCore_eq_pure (by decide) (by decide) hb hp hd hd1]

/-- C2 (witness): the frame theorem applied to a fresh easy engine on the
empty board. -/
theorem C2_board_restored_witness :
    (getMove (mkEngine "easy") emptyBoard 1).2.1 = emptyBoard :=
  C2_board_restored (by decide) (by decide) (by decide) (by decide)

/-- C3: the root move chosen by the alpha-beta search equals the root move
of exhaustive depth-limited minimax without pruning over the same ranked,
truncated candidate lists, whenever the search cannot exhaust the board's
empty cells. -/
theorem C3_pruning_preserves_selection {H W : Nat} (hH : 0 < H)
    (hW : 0 < W) {b : Board} {p : Int} {d : Nat} (hb : Rect b H W)
    (hp : p ≠ 0) (hd : d ≤ countEmpty b) (hd1 : 1 ≤ countEmpty b) :
    (searchCore b p d).1 = (npRoot b p d).1 := by
  rw [searchCore_eq_pure hH hW hb hp hd hd1]
  rw [show ((pureABRoot b p d).1, (pureABRoot b p d).2, b).1 =
    (pureABRoot b p d).1 from rfl]
  rw [pureABRoot_eq_npRoot]

/-- C3 (witness): pruning equivalence at a one-stone board, side −1,
depth 2. -/
theorem C3_pruning_preserves_selection_witness :
    (searchCore c3Board (-1) 2).1 = (npRoot c3Board (-1) 2).1 :=
  @C3_pruning_preserves_selection 15 15 (by decide) (by decide) c3Board
    (-1) 2 (by decide) (by decide) (by decide) (by decide)

/-- C4: `_count_double_pattern` is claimed to detect an open three in at
least two distinct directions.  Its loop ignores the direction variable,
so a single horizontal open three already makes it return true: the board
has an open three in exactly one direction, the spec-side double-three
test is false, yet the code reports a double three. -/
theorem C4_double_three_check :
    countDoublePattern c4Board 7 7 1 3 = true ∧
    (directions.countP fun d => dirCheck c4Board 7 7 1 3 true d) = 1 ∧
    specDoubleOpenThree c4Board 7 7 1 = false := by decide

/-- C5 (counterexample): at depth 1 on a 6×6 position with more than ten
candidates, the code's minimax value differs from the value of the
spec-described recursion that ranks candidates by threat before the
ten-move truncation — recursive plies do not rank. -/
theorem C5_ranked_plies_counterexample :
    (minimax c5Board 1 false ⊥ ⊤ 1).1 ≠ specRankedAB c5Board 1 false ⊥ ⊤ 1 := by
  decide

/-- C5 (amended): the top-level search ranks the generated candidates by
threat and truncates to 20; every recursive ply iterates the unranked
generated list truncated to its first 10 — exhibited by the equality with
the pure root search, whose text carries both truncations. -/
theorem C5_breadth_limits {H W : Nat} (hH : 0 < H) (hW : 0 < W)
    {b : Board} {p : Int} {d : Nat} (hb : Rect b H W) (hp : p ≠ 0)
    (hd : d ≤ countEmpty b) (hd1 : 1 ≤ countEmpty b) :
    searchCore b p d = ((pureABRoot b p d).1, (pureABRoot b p d).2, b) :=
  searchCore_eq_pure hH hW hb hp hd hd1

/-- C5 (witness): the breadth-limit refinement at a one-stone board. -/
theorem C5_breadth_limits_witness :
    searchCore c5WitnessBoard 1 1 =
      ((pureABRoot c5WitnessBoard 1 1).1, (pureABRoot c5WitnessBoard 1 1).2,
        c5WitnessBoard) :=
  @C5_breadth_limits 15 15 (by decide) (by decide) c5WitnessBoard 1 1
    (by decide) (by decide) (by decide) (by decide)

/-- C6 (counterexample): the open-ends branch is claimed to test the cell
immediately beyond each end of the run.  With the origin in the middle of
a three-run whose forward end is blocked one step further on, the code
still reports an open run, because it tests the cells at distance `count`
from the origin instead. -/
theorem C6_open_ends_counterexample :
    dirCheck c6Board 0 5 1 3 true (0, 1) = true ∧
    specOpenAtEnds c6Board 0 5 1 (0, 1) = false := by decide

/-- C6 (amended): the alive check of `_count_pattern` succeeds iff some
direction's run count reaches the requested length and the two cells at
distance `count` from the origin in the two opposite orientations are
in-bounds and empty. -/
theorem C6_open_ends_characterisation (b : Board) (row col p : Int)
    (length : Nat) :
    countPattern b row col p length true = true ↔
      ∃ d ∈ directions, length ≤ dirCount b row col p d ∧
        inB b (row + d.1 * (dirCount b row col p d : Int))
          (col + d.2 * (dirCount b row col p d : Int)) = true ∧
        cellI b (row + d.1 * (dirCount b row col p d : Int))
          (col + d.2 * (dirCount b row col p d : Int)) = 0 ∧
        inB b (row - d.1 * (dirCount b row col p d : Int))
          (col - d.2 * (dirCount b row col p d : Int)) = true ∧
        cellI b (row - d.1 * (dirCount b row col p d : Int))
          (col - d.2 * (dirCount b row col p d : Int)) = 0 := by
  rw [countPattern, List.any_eq_true]
  exact exists_congr fun d => and_congr_right fun _ =>
    dirCheck_alive_iff b row col p length d

/-- C7 (counterexample): during the opening phase a fresh engine answers
the identical empty board with two different moves — the book is indexed
by the move counter, which the first call advances. -/
theorem C7_opening_phase_counterexample :
    (getMove (mkEngine "medium") emptyBoard 1).1 ≠
      (getMove ((getMove (mkEngine "medium") emptyBoard 1).2.2)
        emptyBoard 1).1 := by decide

/-- C7 (amended): past the opening phase (`move_count ≥ 4`) and with the
cache not yet full, two successive `get_move` calls on the identical board
and side return the identical move: the first call stores its move, the
second hits the cache. -/
theorem C7_idempotent_after_opening {st : AIState} {b : Board} {p : Int}
    (hmc : 4 ≤ st.moveCount) (hcache : st.cache.length < st.cacheSize) :
    (getMove ((getMove st b p).2.2) b p).1 = (getMove st b p).1 := by
  have hop : (if st.moveCount < 4 then openingPick st.moveCount b else none)
      = none := if_neg (by omega)
  cases hl : st.cache.lookup b with
  | some m =>
    have h2 : getMove st b p = (m, b, st) := by
      rw [getMove, hop, hl]
    rw [h2]
    show (getMove st b p).1 = m
    rw [h2]
  | none =>
    have h2 : getMove st b p =
        ((searchCore b p st.depth).1, (searchCore b p st.depth).2.2,
          { st with
              cache := st.cache ++ [(b, (searchCore b p st.depth).1)]
              moveCount := st.moveCount + 1 }) := by
      rw [getMove, hop, hl]
      simp only [if_pos hcache]
    rw [h2]
    show (getMove
        { st with
            cache := st.cache ++ [(b, (searchCore b p st.depth).1)]
            moveCount := st.moveCount + 1 } b p).1 =
      (searchCore b p st.depth).1
    rw [getMove]
    have hop2 : (if st.moveCount + 1 < 4 then
        openingPick (st.moveCount + 1) b else none) = none :=
      if_neg (by omega)
    rw [hop2]
    have hl2 : (st.cache ++ [(b, (searchCore b p st.depth).1)]).lookup b =
        some (searchCore b p st.depth).1 := by
      rw [lookup_append_of_none b st.cache _ hl, lookup_singleton_self]
    rw [hl2]

/-- C7 (witness): idempotence for a post-opening engine with an empty
cache on the empty board. -/
theorem C7_idempotent_after_opening_witness :
    (getMove ((getMove ⟨4, [], 10000, 5⟩ emptyBoard 1).2.2)
      emptyBoard 1).1 = (getMove ⟨4, [], 10000, 5⟩ emptyBoard 1).1 :=
  C7_idempotent_after_opening (by decide) (by decide)

/-- C8 (counterexample): the jump-three weight 8000 does not exceed the
sum 7000 + 1000 + 900 of all strictly lower-priority weights, so a single
higher-priority hit can be outranked by a sum of lower-priority ones. -/
theorem C8_dominance_counterexample :
    ¬ ((threatWeights.drop 9).sum < threatWeights.getD 8 0) := by decide

/-- C8 (amended): the tactical point weights do follow the claimed
priority order — they are strictly decreasing along the list. -/
theorem C8_weights_strictly_decreasing :
    List.Chain' (fun a b => b < a) threatWeights := by
  simp only [threatWeights, List.chain'_cons, List.chain'_singleton,
    and_true]
  decide

/-- C9: `get_move` always returns a move: the opening book returns one,
`_get_possible_moves` is never empty thanks to the centre fallback, the
first candidate's finite score beats the `-inf` initial best, and cache
hits return previously stored moves (all of which are present). -/
theorem C9_always_returns_move {st : AIState} {b : Board} {p : Int}
    (hcache : ∀ e ∈ st.cache, e.2.isSome = true) :
    ((getMove st b p).1).isSome = true := by
  rw [getMove]
  split
  · rfl
  · split
    · rename_i m hl
      exact hcache (b, m) (mem_of_lookup_eq_some hl)
    · exact searchCore_isSome b p st.depth

/-- C9 (witness): a fresh engine on the empty board returns a move. -/
theorem C9_always_returns_move_witness :
    ((getMove (mkEngine "easy") emptyBoard 1).1).isSome = true :=
  C9_always_returns_move (by decide)

/-- C10: the cache key is computed from the board alone; past the opening
phase, a board whose key is cached makes `get_move` return the stored
move for either side to move. -/
theorem C10_cache_hit_ignores_player {st : AIState} {b : Board}
    {m : Option Move} (hmc : 4 ≤ st.moveCount)
    (hl : st.cache.lookup b = some m) (p1 p2 : Int) :
    (getMove st b p1).1 = m ∧ (getMove st b p2).1 = m := by
  constructor <;>
    rw [getMove, if_neg (show ¬ st.moveCount < 4 by omega), hl]

/-- C10 (witness): a cached empty board returns the stored centre move for
both sides. -/
theorem C10_cache_hit_ignores_player_witness :
    (getMove ⟨4, [(emptyBoard, some (7, 7))], 10000, 5⟩ emptyBoard 1).1 =
        some (7, 7) ∧
      (getMove ⟨4, [(emptyBoard, some (7, 7))], 10000, 5⟩ emptyBoard
        (-1)).1 = some (7, 7) :=
  C10_cache_hit_ignores_player (by decide) (by decide) 1 (-1)

end Womoku
